import Mathlib

/-! kao: face cropping pipeline (`main.go`)

A shallow embedding of the parts of `main.go` that decide the crop geometry,
the score filter, the output file names and the task structure, together
with the properties proved about them.

Go's `int` is taken to be 64 bits wide.  Integer arithmetic is embedded on
`Int` with an explicit wrap into the 64-bit range after every operation that
can leave it.
-/

namespace Kao

/-! ## Machine integers -/

/-- Two's complement wrap of a mathematical integer into the range of a 64-bit `int`. -/
def wrap64 (x : Int) : Int := (x + 2 ^ 63) % 2 ^ 64 - 2 ^ 63

/-- The values of a 64-bit `int`. -/
def isInt64 (x : Int) : Prop := -2 ^ 63 ≤ x ∧ x < 2 ^ 63

instance (x : Int) : Decidable (isInt64 x) :=
  inferInstanceAs (Decidable (-2 ^ 63 ≤ x ∧ x < 2 ^ 63))

/-- Go `a + b` on `int`. -/
def add64 (a b : Int) : Int := wrap64 (a + b)

/-- Go `a - b` on `int`. -/
def sub64 (a b : Int) : Int := wrap64 (a - b)

/-- Go `a / b` on `int` for a constant non-zero divisor other than `-1`: truncated division. -/
def quo64 (a b : Int) : Int := Int.tdiv a b

/-! ## Data model -/

/-- A floating-point value that is only compared: a finite value, given by the rational number it
denotes, an infinity, or NaN.  The conversion of a `float32` to `float64` is exact and keeps
infinities and NaN, so one type serves for both. -/
inductive FloatVal where
  | fin (q : ℚ)
  | posInf
  | negInf
  | nan
  deriving DecidableEq

/-- Go `a < b` on floating-point values: false when an operand is NaN. -/
def FloatVal.lt : FloatVal → FloatVal → Bool
  | .nan, _ => false
  | _, .nan => false
  | .fin a, .fin b => decide (a < b)
  | .fin _, .posInf => true
  | .fin _, .negInf => false
  | .posInf, _ => false
  | .negInf, .negInf => false
  | .negInf, _ => true

/-- Go `a >= b` on floating-point values: false when an operand is NaN. -/
def FloatVal.ge : FloatVal → FloatVal → Bool
  | .nan, _ => false
  | _, .nan => false
  | .fin a, .fin b => decide (b ≤ a)
  | .fin _, .posInf => false
  | .fin _, .negInf => true
  | .posInf, _ => true
  | .negInf, .negInf => true
  | .negInf, _ => false

/-- Go `pigo.Detection`: the row and column of the centre, the scale, and the detection score
`Q`, a `float32`. -/
structure Detection where
  Row : Int
  Col : Int
  Scale : Int
  Q : FloatVal
  deriving DecidableEq

/-- Go `image.Point`. -/
structure Point where
  X : Int
  Y : Int
  deriving DecidableEq

/-- Go `image.Rectangle`. -/
structure Rectangle where
  Min : Point
  Max : Point
  deriving DecidableEq

/-- Go `Point.Add`. -/
def Point.Add (p q : Point) : Point := ⟨add64 p.X q.X, add64 p.Y q.Y⟩

/-- The clamp of the specification, `clamp(v, lo, hi)`: `v` limited to the interval `[lo, hi]`. -/
def specClamp (v lo hi : Int) : Int := if v < lo then lo else if hi < v then hi else v

/-- Lines 95-105 of `main.go`: the crop rectangle for an already computed side length `size`. -/
def cropRect (size col row cols rows : Int) : Rectangle :=
  let tl : Point :=
    { X := max 0 (min (sub64 col (quo64 size 2)) (sub64 cols size))
      Y := max 0 (min (sub64 row (quo64 size 2)) (sub64 rows size)) }
  { Min := tl, Max := tl.Add { X := size, Y := size } }

/-! ## float64 arithmetic

A finite `float64` (or `float32`) value is represented by the rational number
it denotes.  The result of an arithmetic operation is the exact result rounded
to the nearest `float64`, ties to even (IEEE 754 binary64: 53 bits of
precision, least normal exponent `-1022`).  A rounded magnitude of `2 ^ 1024`
or more stands for an infinity. -/

/-- Round to the nearest integer, ties to the even one. -/
def roundHalfEven (m : ℚ) : Int :=
  if m - ⌊m⌋ < 1 / 2 then ⌊m⌋
  else if 1 / 2 < m - ⌊m⌋ then ⌊m⌋ + 1
  else if ⌊m⌋ % 2 = 0 then ⌊m⌋ else ⌊m⌋ + 1

/-- Binary exponent used to represent a positive `x`: `⌊log₂ x⌋`, and `-1022` in the subnormal range. -/
def binExp (x : ℚ) : Int := max (Int.log 2 x) (-1022)

/-- Unit in the last place of the binary64 format at a positive `x`. -/
def ulp (x : ℚ) : ℚ := 2 ^ (binExp x - 52)

/-- Rounding of a positive rational to binary64. -/
def roundPos (x : ℚ) : ℚ := roundHalfEven (x / ulp x) * ulp x

/-- Rounding of a rational to binary64. -/
def roundF64 (x : ℚ) : ℚ :=
  if 0 < x then roundPos x else if x < 0 then -roundPos (-x) else 0

/-- Truncation toward zero. -/
def truncQ (q : ℚ) : Int := if 0 ≤ q then ⌊q⌋ else ⌈q⌉

/-- Go `int(float64(scale) / face)` for a finite `face`.  When the quotient is
infinite or NaN (`face` is zero) or its truncation is not a value of `int`, the
Go specification leaves the result implementation-dependent: it is the `int`
value `wrap64 ovf`, with `ovf` a parameter. -/
def quoToInt (ovf : Int) (scale : Int) (face : ℚ) : Int :=
  if face = 0 then wrap64 ovf
  else if isInt64 (truncQ (roundF64 (roundF64 scale / face)))
    then truncQ (roundF64 (roundF64 scale / face))
    else wrap64 ovf

/-- Line 94 of `main.go`: `max(size, int(float64(det.Scale)/face))`. -/
def effectiveSize (ovf size : Int) (face : ℚ) (det : Detection) : Int :=
  max size (quoToInt ovf det.Scale face)

/-- Lines 94-105 of `main.go`: the crop rectangle of one detection in an image of
`cols` by `rows` pixels, for the flags `size` and `face`. -/
def computeCrop (ovf size : Int) (face : ℚ) (det : Detection) (cols rows : Int) : Rectangle :=
  cropRect (effectiveSize ovf size face det) det.Col det.Row cols rows

/-! ## The score filter -/

/-- Go `slices.DeleteFunc(s, del)`: the elements of `s` for which `del` is false, in their
order in `s`. -/
def DeleteFunc {α : Type} (s : List α) (del : α → Bool) : List α :=
  match s with
  | [] => []
  | x :: xs => if del x then DeleteFunc xs del else x :: DeleteFunc xs del

/-- Lines 84-86 of `main.go`: the detections left by
`slices.DeleteFunc(dets, func(d) bool { return float64(d.Q) < score })`, for a `score` flag
that is any `float64`, NaN included. -/
def scoreFilter (score : FloatVal) (dets : List Detection) : List Detection :=
  DeleteFunc dets (fun d => FloatVal.lt d.Q score)

/-! ## Output file names

Go strings are embedded as lists of characters.  The path functions are those of
`path/filepath` on Unix, where the separator is `/` and there are no volume names. -/

/-- Go `os.IsPathSeparator`. -/
def isSep (c : Char) : Bool := c = '/'

/-- Go `filepath.Base`: the last element of the path, trailing separators removed first; `.` for
the empty path and `/` for a path made of separators only. -/
def Base (path : List Char) : List Char :=
  if path = [] then ['.']
  else
    let last := ((path.reverse.dropWhile isSep).takeWhile (fun c => !isSep c)).reverse
    if last = [] then ['/'] else last

/-- The scan of `filepath.Ext` over the reversed path: it stops at a separator, and at the first
dot it returns the characters passed, the dot included. -/
def extRev : List Char → Option (List Char)
  | [] => none
  | c :: cs =>
    if isSep c then none
    else if c = '.' then some [c]
    else (extRev cs).map (fun e => c :: e)

/-- Go `filepath.Ext`: the suffix beginning at the final dot in the final element of the path,
empty if there is no dot. -/
def Ext (path : List Char) : List Char :=
  match extRev path.reverse with
  | some e => e.reverse
  | none => []

/-- Go `strings.TrimSuffix`. -/
def TrimSuffix (s suffix : List Char) : List Char :=
  if suffix.isSuffixOf s then s.take (s.length - suffix.length) else s

/-- Go `fmt.Sprintf("%02d", i)` for `i ≥ 0`: the decimal digits of `i`, padded with zeros on the
left to a width of 2. -/
def pad2 (i : Nat) : List Char :=
  List.replicate (2 - (Nat.toDigits 10 i).length) '0' ++ Nat.toDigits 10 i

/-- The number a string of decimal digits denotes. -/
def decValue (l : List Char) : Nat := l.foldl (fun acc c => 10 * acc + (c.toNat - 48)) 0

/-- The elements of a path: the pieces between separators. -/
def splitSlash : List Char → List (List Char)
  | [] => [[]]
  | c :: cs =>
    if isSep c then [] :: splitSlash cs
    else
      match splitSlash cs with
      | h :: t => (c :: h) :: t
      | [] => [[c]]

/-- An ordinary path element: not empty, without separator, and neither `.` nor `..`. -/
def isElem (n : List Char) : Prop := n ≠ [] ∧ '/' ∉ n ∧ n ≠ ['.'] ∧ n ≠ ['.', '.']

/-- One step of `filepath.Clean` on the elements kept so far (last kept first): empty and `.`
elements are dropped, `..` removes the last kept element if that is not itself `..`, is dropped
at the root, and is kept otherwise; any other element is kept. -/
def cleanStep (rooted : Bool) (stack : List (List Char)) (e : List Char) : List (List Char) :=
  if e = [] then stack
  else if e = ['.'] then stack
  else if e = ['.', '.'] then
    match stack with
    | [] => if rooted then [] else [e]
    | top :: rest => if top = ['.', '.'] then e :: stack else rest
  else e :: stack

/-- Whether a path begins with a separator. -/
def isRooted (path : List Char) : Bool := path.head? = some '/'

/-- The elements `filepath.Clean` keeps of a path, in order. -/
def cleanKept (path : List Char) : List (List Char) :=
  ((splitSlash path).foldl (cleanStep (isRooted path)) []).reverse

/-- The buffer of `filepath.Clean` at the end of its scan: the leading separator of a rooted
path, then the kept elements with one separator between them. -/
def cleanBody (path : List Char) : List Char :=
  (if isRooted path then ['/'] else []) ++ List.intercalate ['/'] (cleanKept path)

/-- Go `filepath.Clean`: the shortest path name equivalent to `path` by purely lexical
processing; `.` when the result is empty. -/
def Clean (path : List Char) : List Char :=
  if cleanBody path = [] then ['.'] else cleanBody path

/-- Go `filepath.Join(dir, name)`: the non-empty elements joined by a separator, cleaned. -/
def Join (dir name : List Char) : List Char :=
  if dir ≠ [] then Clean (dir ++ '/' :: name)
  else if name ≠ [] then Clean name
  else []

/-- Line 58 of `main.go`: `strings.TrimSuffix(filepath.Base(arg), filepath.Ext(arg))`. -/
def base (arg : List Char) : List Char := TrimSuffix (Base arg) (Ext arg)

/-- Line 109 of `main.go`: `filepath.Join(out, fmt.Sprintf("%s_%02d.png", base, i))`. -/
def filename (out arg : List Char) (i : Nat) : List Char :=
  Join out (base arg ++ '_' :: pad2 i ++ ".png".toList)

/-- The loop of lines 89-113 of `main.go` from index `i` on: the file name and the crop
rectangle handed to `crop` for each detection, in the order of the loop. -/
def dispatchFrom (out arg : List Char) (rect : Detection → Rectangle) :
    Nat → List Detection → List (List Char × Rectangle)
  | _, [] => []
  | i, det :: dets => (filename out arg i, rect det) :: dispatchFrom out arg rect (i + 1) dets

/-- Lines 84-113 of `main.go` for one image of `cols` by `rows` pixels: what is saved for the
clustered detections `dets`. -/
def imageSaves (ovf : Detection → Int) (out arg : List Char) (size : Int) (face : ℚ)
    (score : FloatVal)
    (cols rows : Int) (dets : List Detection) : List (List Char × Rectangle) :=
  dispatchFrom out arg (fun det => computeCrop (ovf det) size face det cols rows) 0
    (scoreFilter score dets)

/-! ## Tasks

The goroutines of `main` and the two `sync.WaitGroup`s as a transition system.  A run is a
schedule: a list naming the goroutine that moves next.  `wg.Add(1)` followed by `go` is one
move of the spawning goroutine; the deferred `wg.Done()` is the last move of a task;
`wg.Wait()` can be passed when the counter is zero. -/

/-- Where `main` is: in the loop of line 53 about to handle argument `j` (past the loop, at the
`wg.Wait()` of line 116, when `j` is the number of arguments), or returned. -/
inductive MainPc where
  | spawning (j : Nat)
  | returned
  deriving DecidableEq

/-- Where the task of one image is: not yet started, at the head of the loop of line 89 with
index `i` (past the loop when `i` is the number of surviving detections), at the `wg.Wait()` of
line 112 after starting the task of detection `i`, or finished. -/
inductive ImgPc where
  | idle
  | loop (i : Nat)
  | waiting (i : Nat)
  | done
  deriving DecidableEq

/-- Where the crop/save task of one detection is. -/
inductive DetPc where
  | idle
  | running
  | finished
  deriving DecidableEq

/-- The goroutines: `main`, the task of image `a`, the task of detection `i` of image `a`. -/
inductive Thread where
  | main
  | image (a : Nat)
  | det (a i : Nat)
  deriving DecidableEq

/-- The state of a run: the program counters, the counter of the `WaitGroup` of line 52
(`outer`) and, for each image, the counter of the `WaitGroup` of line 88 (`inner`). -/
structure TaskState where
  mainPc : MainPc
  outer : Nat
  img : Nat → ImgPc
  inner : Nat → Nat
  det : Nat → Nat → DetPc

/-- The state after the classifier has been unpacked, before the loop of line 53. -/
def TaskState.init : TaskState :=
  { mainPc := .spawning 0, outer := 0, img := fun _ => .idle, inner := fun _ => 0,
    det := fun _ _ => .idle }

/-- One move of a goroutine in a batch of `n` images, image `a` having `k a` surviving
detections (none when it cannot be loaded); `none` when the goroutine cannot move. -/
def step (n : Nat) (k : Nat → Nat) (s : TaskState) : Thread → Option TaskState
  | .main =>
    match s.mainPc with
    | .spawning j =>
      if j < n then
        some { s with mainPc := .spawning (j + 1), outer := s.outer + 1,
                      img := fun x => if x = j then .loop 0 else s.img x }
      else if s.outer = 0 then some { s with mainPc := .returned }
      else none
    | .returned => none
  | .image a =>
    match s.img a with
    | .idle => none
    | .loop i =>
      if i < k a then
        some { s with inner := fun x => if x = a then s.inner a + 1 else s.inner x,
                      det := fun x y => if x = a ∧ y = i then .running else s.det x y,
                      img := fun x => if x = a then .waiting i else s.img x }
      else
        some { s with outer := s.outer - 1,
                      img := fun x => if x = a then .done else s.img x }
    | .waiting i =>
      if s.inner a = 0 then
        some { s with img := fun x => if x = a then .loop (i + 1) else s.img x }
      else none
    | .done => none
  | .det a i =>
    match s.det a i with
    | .running =>
      some { s with inner := fun x => if x = a then s.inner a - 1 else s.inner x,
                    det := fun x y => if x = a ∧ y = i then .finished else s.det x y }
    | _ => none

/-- The state reached from `s` under a schedule; the turn of a goroutine that cannot move is
skipped. -/
def exec (n : Nat) (k : Nat → Nat) : TaskState → List Thread → TaskState
  | s, [] => s
  | s, t :: ts =>
    match step n k s t with
    | some s2 => exec n k s2 ts
    | none => exec n k s ts

/-- The number of image tasks among the first `j` that are started and not finished. -/
def activeCount (img : Nat → ImgPc) : Nat → Nat
  | 0 => 0
  | j + 1 => activeCount img j + (if img j = .idle ∨ img j = .done then 0 else 1)

/-- What holds of the task of image `a` and its detection tasks in every reachable state. -/
def ImgInv (k : Nat → Nat) (s : TaskState) (a : Nat) : Prop :=
  match s.img a with
  | .idle => (∀ x, s.det a x = .idle) ∧ s.inner a = 0
  | .loop i => i ≤ k a ∧ (∀ x, x < i → s.det a x = .finished) ∧
      (∀ x, i ≤ x → s.det a x = .idle) ∧ s.inner a = 0
  | .waiting i => i < k a ∧ (∀ x, x < i → s.det a x = .finished) ∧
      (∀ x, i < x → s.det a x = .idle) ∧
      ((s.det a i = .running ∧ s.inner a = 1) ∨ (s.det a i = .finished ∧ s.inner a = 0))
  | .done => (∀ x, x < k a → s.det a x = .finished) ∧ (∀ x, k a ≤ x → s.det a x = .idle) ∧
      s.inner a = 0

/-- What holds of `main` and the image tasks in every reachable state. -/
def MainInv (n : Nat) (s : TaskState) : Prop :=
  match s.mainPc with
  | .spawning j => j ≤ n ∧ (∀ a, j ≤ a → s.img a = .idle) ∧ (∀ a, a < j → s.img a ≠ .idle) ∧
      s.outer = activeCount s.img j
  | .returned => (∀ a, a < n → s.img a = .done) ∧ (∀ a, n ≤ a → s.img a = .idle)

/-- The invariant of the transition system. -/
def Inv (n : Nat) (k : Nat → Nat) (s : TaskState) : Prop :=
  MainInv n s ∧ ∀ a, ImgInv k s a

/-! ## Facts about rounding -/

theorem roundHalfEven_intCast (n : Int) : roundHalfEven (n : ℚ) = n := by
  simp [roundHalfEven]

theorem le_roundHalfEven (a : Int) (m : ℚ) (h : (a : ℚ) ≤ m) : a ≤ roundHalfEven m := by
  have h1 : a ≤ ⌊m⌋ := Int.le_floor.mpr h
  unfold roundHalfEven
  split_ifs <;> omega

theorem roundHalfEven_le (b : Int) (m : ℚ) (h : m ≤ (b : ℚ)) : roundHalfEven m ≤ b := by
  rcases eq_or_lt_of_le h with h | h
  · rw [h, roundHalfEven_intCast]
  · have h1 : ⌊m⌋ < b := Int.floor_lt.mpr h
    unfold roundHalfEven
    split_ifs <;> omega

theorem binExp_le (x : ℚ) (h0 : 0 < x) (h : x < 2 ^ 53) : binExp x ≤ 52 := by
  unfold binExp
  have : Int.log 2 x < 53 := by
    apply (Int.lt_zpow_iff_log_lt (by norm_num) h0).mp
    exact_mod_cast h
  omega

/-- Below `2 ^ 53` the reciprocal of the unit in the last place is a natural number. -/
theorem ulp_inv (x : ℚ) (h0 : 0 < x) (h : x < 2 ^ 53) : ∃ k : ℕ, ulp x = 1 / 2 ^ k := by
  have hb := binExp_le x h0 h
  refine ⟨(52 - binExp x).toNat, ?_⟩
  unfold ulp
  have : binExp x - 52 = -((52 - binExp x).toNat : Int) := by omega
  rw [this, zpow_neg, zpow_natCast]; simp

/-- Below `2 ^ 53` rounding does not cross an integer. -/
theorem roundPos_bounds (x : ℚ) (a b : Int) (h0 : 0 < x) (h : x < 2 ^ 53)
    (ha : (a : ℚ) ≤ x) (hb : x ≤ b) : (a : ℚ) ≤ roundPos x ∧ roundPos x ≤ b := by
  obtain ⟨k, hk⟩ := ulp_inv x h0 h
  unfold roundPos
  rw [hk]
  have hp : (0 : ℚ) < 2 ^ k := by positivity
  have e : x / (1 / 2 ^ k) = x * 2 ^ k := by field_simp
  rw [e]
  have h1 : a * 2 ^ k ≤ roundHalfEven (x * 2 ^ k) := by
    apply le_roundHalfEven
    push_cast
    exact mul_le_mul_of_nonneg_right ha hp.le
  have h2 : roundHalfEven (x * 2 ^ k) ≤ b * 2 ^ k := by
    apply roundHalfEven_le
    push_cast
    exact mul_le_mul_of_nonneg_right hb hp.le
  have h1' : ((a * 2 ^ k : Int) : ℚ) ≤ (roundHalfEven (x * 2 ^ k) : ℚ) := by exact_mod_cast h1
  have h2' : (roundHalfEven (x * 2 ^ k) : ℚ) ≤ ((b * 2 ^ k : Int) : ℚ) := by exact_mod_cast h2
  push_cast at h1' h2'
  constructor
  · rw [mul_one_div, le_div_iff₀ hp]; exact h1'
  · rw [mul_one_div, div_le_iff₀ hp]; exact h2'

/-- Integers of magnitude below `2 ^ 53` are binary64 values. -/
theorem roundF64_intCast (n : Int) (h : |n| < 2 ^ 53) : roundF64 (n : ℚ) = n := by
  have hb := abs_lt.mp h
  unfold roundF64
  rcases lt_trichotomy n 0 with hn | hn | hn
  · have h1 : ¬ (0 : ℚ) < n := by push_cast [not_lt]; exact_mod_cast hn.le
    have h2 : (n : ℚ) < 0 := by exact_mod_cast hn
    rw [if_neg h1, if_pos h2]
    have h3 : (0 : ℚ) < ((-n : Int) : ℚ) := by exact_mod_cast (by omega : 0 < -n)
    have h4 : ((-n : Int) : ℚ) < 2 ^ 53 := by exact_mod_cast (by omega : -n < 2 ^ 53)
    have := roundPos_bounds _ (-n) (-n) h3 h4 le_rfl le_rfl
    have e : roundPos ((-n : Int) : ℚ) = ((-n : Int) : ℚ) := le_antisymm this.2 this.1
    push_cast at e
    rw [e]; ring
  · subst hn; simp
  · have h3 : (0 : ℚ) < n := by exact_mod_cast hn
    have h4 : (n : ℚ) < 2 ^ 53 := by exact_mod_cast hb.2
    rw [if_pos h3]
    have := roundPos_bounds _ n n h3 h4 le_rfl le_rfl
    exact le_antisymm this.2 this.1

/-- Below `2 ^ 53`, rounding to binary64 and truncating stays between floor and ceiling. -/
theorem truncQ_roundF64_bounds (x : ℚ) (h0 : 0 ≤ x) (h : x < 2 ^ 53) :
    ⌊x⌋ ≤ truncQ (roundF64 x) ∧ truncQ (roundF64 x) ≤ ⌈x⌉ := by
  rcases eq_or_lt_of_le h0 with h0 | h0
  · subst h0; simp [roundF64, truncQ]
  · have hb := roundPos_bounds x ⌊x⌋ ⌈x⌉ h0 h (Int.floor_le x) (Int.le_ceil x)
    have hf : (0 : ℚ) ≤ (⌊x⌋ : ℚ) := by exact_mod_cast Int.floor_nonneg.mpr h0.le
    have hr : 0 ≤ roundPos x := le_trans hf hb.1
    unfold roundF64 truncQ
    rw [if_pos h0, if_pos hr]
    constructor
    · exact Int.le_floor.mpr hb.1
    · have : ((⌊roundPos x⌋ : Int) : ℚ) ≤ (⌈x⌉ : ℚ) := le_trans (Int.floor_le _) hb.2
      exact_mod_cast this

/-! ## Facts about 64-bit arithmetic and the conversion to `int` -/

theorem wrap64_eq (x : Int) (h : isInt64 x) : wrap64 x = x := by
  unfold isInt64 at h
  unfold wrap64
  omega

theorem wrap64_isInt64 (x : Int) : isInt64 (wrap64 x) := by
  unfold isInt64 wrap64
  omega

theorem quoToInt_isInt64 (ovf scale : Int) (face : ℚ) : isInt64 (quoToInt ovf scale face) := by
  unfold quoToInt
  split_ifs with h1 h2
  · exact wrap64_isInt64 _
  · exact h2
  · exact wrap64_isInt64 _

theorem quo64_two (side : Int) (h : 0 ≤ side) : quo64 side 2 = side / 2 := by
  unfold quo64
  exact Int.tdiv_eq_ediv h (by norm_num)

/-- The expression `max(0, min(v, hi))` of lines 96-97 is the clamp to `[0, hi]` when
`0 ≤ hi`. -/
theorem max_min_eq_specClamp (v hi : Int) (h : 0 ≤ hi) : max 0 (min v hi) = specClamp v 0 hi := by
  unfold specClamp
  split_ifs <;> omega

/-- One axis of the crop rectangle when the side fits: the corner is clamped into `[0, n - side]`
whatever the first argument of `min` is. -/
theorem axis_fits (a side n : Int) (hn : isInt64 n) (h0 : 0 ≤ side) (h1 : side ≤ n) :
    0 ≤ max 0 (min a (sub64 n side)) ∧ max 0 (min a (sub64 n side)) ≤ n - side ∧
    add64 (max 0 (min a (sub64 n side))) side = max 0 (min a (sub64 n side)) + side := by
  have e : sub64 n side = n - side := by
    apply wrap64_eq
    unfold isInt64 at *
    omega
  rw [e]
  refine ⟨le_max_left _ _, by omega, ?_⟩
  apply wrap64_eq
  unfold isInt64 at *
  omega

/-- One axis of the crop rectangle when the side exceeds the image: the corner is `0` and the far
edge is the side. -/
theorem axis_exceeds (a side n : Int) (hn : isInt64 n) (hn0 : 0 ≤ n) (hs : isInt64 side)
    (h1 : n < side) :
    max 0 (min a (sub64 n side)) = 0 ∧ add64 (max 0 (min a (sub64 n side))) side = side := by
  have e : sub64 n side = n - side := by
    apply wrap64_eq
    unfold isInt64 at *
    omega
  rw [e]
  have e2 : max 0 (min a (n - side)) = 0 := by omega
  rw [e2]
  refine ⟨rfl, ?_⟩
  unfold add64
  rw [zero_add]
  exact wrap64_eq _ hs

theorem effectiveSize_isInt64 (ovf size : Int) (face : ℚ) (det : Detection) (h : isInt64 size) :
    isInt64 (effectiveSize ovf size face det) := by
  have hq := quoToInt_isInt64 ovf det.Scale face
  unfold effectiveSize
  unfold isInt64 at *
  omega

theorem truncQ_intCast (k : Int) : truncQ (k : ℚ) = k := by
  unfold truncQ
  split_ifs <;> simp

/-- The conversion when the quotient is an integer below `2 ^ 53`: no rounding happens. -/
theorem quoToInt_exact (ovf scale k : Int) (face : ℚ) (hs : |scale| < 2 ^ 53)
    (hk : |k| < 2 ^ 53) (hf : face ≠ 0) (h : (scale : ℚ) / face = k) :
    quoToInt ovf scale face = k := by
  have hk2 : isInt64 k := by
    have := abs_lt.mp hk
    unfold isInt64
    omega
  unfold quoToInt
  rw [if_neg hf, roundF64_intCast scale hs, h, roundF64_intCast k hk, truncQ_intCast, if_pos hk2]

/-- The conversion for a non-negative scale and a positive face factor whose quotient is below
`2 ^ 53`: the result lies between the floor and the ceiling of the exact quotient. -/
theorem quoToInt_bounds (ovf scale : Int) (face : ℚ) (hs0 : 0 ≤ scale) (hs : scale < 2 ^ 53)
    (hf : 0 < face) (h : (scale : ℚ) / face < 2 ^ 53) :
    ⌊(scale : ℚ) / face⌋ ≤ quoToInt ovf scale face ∧
      quoToInt ovf scale face ≤ ⌈(scale : ℚ) / face⌉ := by
  have hx0 : 0 ≤ (scale : ℚ) / face := div_nonneg (by exact_mod_cast hs0) hf.le
  have hb := truncQ_roundF64_bounds _ hx0 h
  have h1 : 0 ≤ ⌊(scale : ℚ) / face⌋ := Int.floor_nonneg.mpr hx0
  have h2 : ⌈(scale : ℚ) / face⌉ ≤ 2 ^ 53 := by
    apply Int.ceil_le.mpr
    push_cast
    exact h.le
  have hi : isInt64 (truncQ (roundF64 ((scale : ℚ) / face))) := by
    unfold isInt64
    omega
  unfold quoToInt
  rw [if_neg hf.ne.symm, roundF64_intCast scale (by rw [abs_lt]; omega), if_pos hi]
  exact hb

/-- The side length for `-size 256 -face 0.5` and a detection of scale 80. -/
theorem effectiveSize_scale80 (ovf row col : Int) (q : FloatVal) :
    effectiveSize ovf 256 (1 / 2) ⟨row, col, 80, q⟩ = 256 := by
  unfold effectiveSize
  rw [quoToInt_exact ovf 80 160 (1 / 2) (by norm_num) (by norm_num) (by norm_num) (by norm_num)]
  decide

/-- The power `2 ^ 64` is a binary64 value. -/
theorem roundF64_two_pow_64 : roundF64 (2 ^ 64) = 2 ^ 64 := by
  have hl : Int.log 2 ((2 : ℚ) ^ 64) = 64 := by
    have := Int.log_zpow (R := ℚ) (b := 2) (by norm_num) 64
    rw [zpow_ofNat] at this
    simpa using this
  have hu : ulp ((2 : ℚ) ^ 64) = 2 ^ 12 := by
    unfold ulp binExp
    rw [hl]
    norm_num
  have hd : ((2 : ℚ) ^ 64) / 2 ^ 12 = ((2 ^ 52 : Int) : ℚ) := by norm_num
  unfold roundF64
  rw [if_pos (by positivity)]
  unfold roundPos
  rw [hu, hd, roundHalfEven_intCast]
  norm_num

/-- With `-face 2^-60` and a detection of scale 16 the quotient is `2 ^ 64`, which is not a value
of `int`: the conversion yields the implementation-dependent value. -/
theorem quoToInt_overflow (ovf : Int) : quoToInt ovf 16 (1 / 2 ^ 60) = wrap64 ovf := by
  have hq : ((16 : Int) : ℚ) / (1 / 2 ^ 60) = 2 ^ 64 := by norm_num
  have ht : truncQ ((2 : ℚ) ^ 64) = 2 ^ 64 := by
    have := truncQ_intCast (2 ^ 64)
    push_cast at this
    exact this
  unfold quoToInt
  rw [if_neg (by positivity), roundF64_intCast 16 (by norm_num), hq, roundF64_two_pow_64, ht,
    if_neg (by decide)]

/-- The integer `2 ^ 53 + 1` is not a binary64 value: it lies half-way between `2 ^ 53` and
`2 ^ 53 + 2` and is rounded to the one with the even significand. -/
theorem roundF64_two_pow_53_succ : roundF64 (2 ^ 53 + 1) = 2 ^ 53 := by
  have hx0 : (0 : ℚ) < 2 ^ 53 + 1 := by positivity
  have hl : Int.log 2 ((2 : ℚ) ^ 53 + 1) = 53 := by
    have h1 : (53 : Int) ≤ Int.log 2 ((2 : ℚ) ^ 53 + 1) := by
      apply (Int.zpow_le_iff_le_log (by norm_num) hx0).mp
      norm_num
    have h2 : Int.log 2 ((2 : ℚ) ^ 53 + 1) < 54 := by
      apply (Int.lt_zpow_iff_log_lt (by norm_num) hx0).mp
      norm_num
    omega
  have hu : ulp ((2 : ℚ) ^ 53 + 1) = 2 := by
    unfold ulp binExp
    rw [hl]
    norm_num
  have hf : ⌊((2 : ℚ) ^ 53 + 1) / 2⌋ = 2 ^ 52 := by
    rw [Int.floor_eq_iff]
    constructor <;> norm_num
  have hr : roundHalfEven (((2 : ℚ) ^ 53 + 1) / 2) = 2 ^ 52 := by
    unfold roundHalfEven
    rw [hf]
    norm_num
  unfold roundF64
  rw [if_pos hx0]
  unfold roundPos
  rw [hu, hr]
  norm_num

/-- With `-face 1` and a detection of scale `2 ^ 53 + 1` the conversion yields `2 ^ 53`. -/
theorem quoToInt_inexact (ovf : Int) : quoToInt ovf (2 ^ 53 + 1) 1 = 2 ^ 53 := by
  have hc : (((2 ^ 53 + 1 : Int)) : ℚ) = 2 ^ 53 + 1 := by norm_num
  have h53 : roundF64 ((2 : ℚ) ^ 53) = 2 ^ 53 := by
    have hx0 : (0 : ℚ) < 2 ^ 53 := by positivity
    have hl : Int.log 2 ((2 : ℚ) ^ 53) = 53 := by
      have := Int.log_zpow (R := ℚ) (b := 2) (by norm_num) 53
      rw [zpow_ofNat] at this
      simpa using this
    have hu : ulp ((2 : ℚ) ^ 53) = 2 := by
      unfold ulp binExp
      rw [hl]
      norm_num
    have hd : ((2 : ℚ) ^ 53) / 2 = ((2 ^ 52 : Int) : ℚ) := by norm_num
    unfold roundF64
    rw [if_pos hx0]
    unfold roundPos
    rw [hu, hd, roundHalfEven_intCast]
    norm_num
  have ht : truncQ ((2 : ℚ) ^ 53) = 2 ^ 53 := by
    have := truncQ_intCast (2 ^ 53)
    push_cast at this
    exact this
  unfold quoToInt
  rw [if_neg one_ne_zero, hc, roundF64_two_pow_53_succ, div_one, h53, ht, if_pos (by decide)]

/-! ## Facts about paths and decimal numerals -/

theorem splitSlash_ne_nil (p : List Char) : splitSlash p ≠ [] := by
  cases p with
  | nil => simp [splitSlash]
  | cons c cs =>
    unfold splitSlash
    split_ifs
    · simp
    · split <;> simp

theorem splitSlash_noSep (n : List Char) (h : '/' ∉ n) : splitSlash n = [n] := by
  induction n with
  | nil => rfl
  | cons c cs ih =>
    have hc : isSep c = false := by
      simp only [isSep, decide_eq_false_iff_not]
      intro e
      exact h (by simp [e])
    have hcs : '/' ∉ cs := fun m => h (List.mem_cons_of_mem _ m)
    unfold splitSlash
    rw [ih hcs]
    simp [hc]

theorem splitSlash_append (p n : List Char) (h : '/' ∉ n) :
    splitSlash (p ++ '/' :: n) = splitSlash p ++ [n] := by
  induction p with
  | nil =>
    have : isSep '/' = true := by decide
    simp [splitSlash, this, splitSlash_noSep n h]
  | cons c cs ih =>
    rw [List.cons_append]
    unfold splitSlash
    rw [ih]
    by_cases hc : isSep c = true
    · simp [hc]
    · simp only [hc]
      obtain ⟨x, t, e⟩ := List.exists_cons_of_ne_nil (splitSlash_ne_nil cs)
      rw [e]
      simp

theorem cleanStep_elem (rooted : Bool) (stack : List (List Char)) (n : List Char)
    (h : isElem n) : cleanStep rooted stack n = n :: stack := by
  unfold cleanStep
  rw [if_neg h.1, if_neg h.2.2.1, if_neg h.2.2.2]

theorem intercalate_cons_cons (x y : List Char) (t : List (List Char)) :
    List.intercalate ['/'] (x :: y :: t) = x ++ '/' :: List.intercalate ['/'] (y :: t) := by
  simp [List.intercalate, List.intersperse]

theorem intercalate_snoc (xs : List (List Char)) (n : List Char) (h : xs ≠ []) :
    List.intercalate ['/'] (xs ++ [n]) = List.intercalate ['/'] xs ++ '/' :: n := by
  induction xs with
  | nil => exact absurd rfl h
  | cons x t ih =>
    cases t with
    | nil => simp [List.intercalate, List.intersperse]
    | cons y t2 =>
      have := ih (by simp)
      rw [List.cons_append, List.cons_append, intercalate_cons_cons, intercalate_cons_cons,
        ← List.cons_append, this]
      simp

theorem isRooted_elem (n : List Char) (h : isElem n) : isRooted n = false := by
  cases n with
  | nil => rfl
  | cons c cs =>
    have : c ≠ '/' := fun e => h.2.1 (by simp [e])
    simp [isRooted, this]

theorem isRooted_append (p q : List Char) (hp : p ≠ []) : isRooted (p ++ q) = isRooted p := by
  cases p with
  | nil => exact absurd rfl hp
  | cons c cs => rfl

theorem cleanKept_elem (n : List Char) (h : isElem n) : cleanKept n = [n] := by
  unfold cleanKept
  rw [splitSlash_noSep n h.2.1]
  simp [cleanStep_elem _ _ n h]

theorem cleanKept_append_elem (p n : List Char) (hp : p ≠ []) (h : isElem n) :
    cleanKept (p ++ '/' :: n) = cleanKept p ++ [n] := by
  unfold cleanKept
  rw [isRooted_append p _ hp, splitSlash_append p n h.2.1]
  simp [cleanStep_elem _ _ n h]

theorem Clean_elem (n : List Char) (h : isElem n) : Clean n = n := by
  unfold Clean cleanBody
  rw [isRooted_elem n h, cleanKept_elem n h]
  simp [List.intercalate, List.intersperse, h.1]

/-- Cleaning a non-empty path followed by a separator and an ordinary element: the element is
kept as the last one, after what cleaning keeps of the path. -/
theorem Clean_append_elem (p n : List Char) (hp : p ≠ []) (h : isElem n) :
    Clean (p ++ '/' :: n) =
      (if isRooted p then ['/'] else []) ++
        (if cleanKept p = [] then n else List.intercalate ['/'] (cleanKept p) ++ '/' :: n) := by
  unfold Clean cleanBody
  rw [isRooted_append p _ hp, cleanKept_append_elem p n hp h]
  by_cases hs : cleanKept p = []
  · rw [hs]
    simp [List.intercalate, List.intersperse, h.1]
  · rw [if_neg hs, intercalate_snoc _ _ hs]
    simp

/-- The file name produced by `Join` for an ordinary element is that element after a prefix that
depends on the directory only. -/
theorem Join_elem_prefix (out : List Char) :
    ∃ P : List Char, ∀ n, isElem n → Join out n = P ++ n := by
  by_cases ho : out = []
  · refine ⟨[], fun n hn => ?_⟩
    subst ho
    simp [Join, hn.1, Clean_elem n hn]
  · by_cases hs : cleanKept out = []
    · refine ⟨if isRooted out then ['/'] else [], fun n hn => ?_⟩
      unfold Join
      rw [if_pos ho, Clean_append_elem out n ho hn, if_pos hs]
    · refine ⟨(if isRooted out then ['/'] else []) ++
        (List.intercalate ['/'] (cleanKept out) ++ ['/']), fun n hn => ?_⟩
      unfold Join
      rw [if_pos ho, Clean_append_elem out n ho hn, if_neg hs]
      simp

/-- Joining an ordinary element to a directory whose clean form is neither `.` nor `/`. -/
theorem Join_elem (out n : List Char) (ho : out ≠ []) (h1 : Clean out ≠ ['.'])
    (h2 : Clean out ≠ ['/']) (hn : isElem n) : Join out n = Clean out ++ '/' :: n := by
  have hb : cleanBody out ≠ [] := by
    intro hb
    apply h1
    unfold Clean
    rw [if_pos hb]
  have hs : cleanKept out ≠ [] := by
    intro hs
    by_cases hr : isRooted out = true
    · apply h2
      unfold Clean cleanBody
      simp [hs, hr, List.intercalate]
    · apply hb
      unfold cleanBody
      simp [hs, hr, List.intercalate]
  unfold Join
  rw [if_pos ho, Clean_append_elem out n ho hn, if_neg hs]
  unfold Clean
  rw [if_neg hb]
  unfold cleanBody
  simp

theorem digitChar_val (k : Nat) (h : k < 10) : (Nat.digitChar k).toNat - 48 = k := by
  interval_cases k <;> rfl

theorem digitChar_isDigit (k : Nat) (h : k < 10) : (Nat.digitChar k).isDigit = true := by
  interval_cases k <;> rfl

theorem toDigitsCore_eq (fuel : Nat) : ∀ (n : Nat) (ds : List Char), n < fuel → 0 < n →
    Nat.toDigitsCore 10 fuel n ds = (Nat.digits 10 n).reverse.map Nat.digitChar ++ ds := by
  induction fuel with
  | zero => intro n ds h; omega
  | succ f ih =>
    intro n ds h hn
    rw [Nat.digits_def' (by norm_num) hn]
    unfold Nat.toDigitsCore
    by_cases h0 : n / 10 = 0
    · simp [h0]
    · simp only [h0, if_false]
      rw [ih (n / 10) _ (by omega) (by omega)]
      simp

theorem toDigits_eq (n : Nat) (hn : 0 < n) :
    Nat.toDigits 10 n = (Nat.digits 10 n).reverse.map Nat.digitChar := by
  unfold Nat.toDigits
  rw [toDigitsCore_eq (n + 1) n [] (by omega) hn]
  simp

theorem toDigits_isDigit (n : Nat) : ∀ c ∈ Nat.toDigits 10 n, c.isDigit = true := by
  rcases Nat.eq_zero_or_pos n with h | h
  · subst h
    decide
  · rw [toDigits_eq n h]
    intro c hc
    simp only [List.mem_map, List.mem_reverse] at hc
    obtain ⟨k, hk, rfl⟩ := hc
    exact digitChar_isDigit k (Nat.digits_lt_base (by norm_num) hk)

theorem decValue_digits (ds : List Nat) (h : ∀ k ∈ ds, k < 10) :
    decValue (ds.reverse.map Nat.digitChar) = Nat.ofDigits 10 ds := by
  unfold decValue
  rw [List.foldl_map, List.foldl_reverse]
  induction ds with
  | nil => rfl
  | cons d t ih =>
    have hd := digitChar_val d (h d (by simp))
    have ht := ih (fun k hk => h k (List.mem_cons_of_mem _ hk))
    simp only [List.foldr_cons, Nat.ofDigits_cons] at ht ⊢
    rw [ht, hd]
    ring

theorem decValue_toDigits (n : Nat) : decValue (Nat.toDigits 10 n) = n := by
  rcases Nat.eq_zero_or_pos n with h | h
  · subst h
    decide
  · rw [toDigits_eq n h, decValue_digits _ (fun k hk => Nat.digits_lt_base (by norm_num) hk),
      Nat.ofDigits_digits]

theorem decValue_zeros (k : Nat) (l : List Char) :
    decValue (List.replicate k '0' ++ l) = decValue l := by
  unfold decValue
  rw [List.foldl_append]
  congr 1
  induction k with
  | zero => rfl
  | succ k ih =>
    rw [List.replicate_succ, List.foldl_cons]
    exact ih

theorem decValue_pad2 (i : Nat) : decValue (pad2 i) = i := by
  unfold pad2
  rw [decValue_zeros, decValue_toDigits]

theorem pad2_isDigit (i : Nat) : ∀ c ∈ pad2 i, c.isDigit = true := by
  intro c hc
  unfold pad2 at hc
  rcases List.mem_append.mp hc with h | h
  · rw [(List.mem_replicate.mp h).2]
    decide
  · exact toDigits_isDigit i c h

theorem pad2_injective (i j : Nat) (h : pad2 i = pad2 j) : i = j := by
  have := congrArg decValue h
  rwa [decValue_pad2, decValue_pad2] at this

theorem pad2_length (i : Nat) : 2 ≤ (pad2 i).length := by
  unfold pad2
  rw [List.length_append, List.length_replicate]
  omega

theorem Base_noSep (arg : List Char) (h : Base arg ≠ ['/']) : '/' ∉ Base arg := by
  unfold Base at h ⊢
  by_cases ha : arg = []
  · rw [if_pos ha]
    decide
  · rw [if_neg ha] at h ⊢
    simp only at h ⊢
    split_ifs at h ⊢ with hl
    · exact absurd rfl h
    · intro hm
      rw [List.mem_reverse] at hm
      have := List.mem_takeWhile_imp hm
      simp [isSep] at this

theorem base_noSep (arg : List Char) (h : Base arg ≠ ['/']) : '/' ∉ base arg := by
  have hb := Base_noSep arg h
  unfold base TrimSuffix
  split_ifs
  · exact fun hm => hb (List.mem_of_mem_take hm)
  · exact hb

theorem png_eq : ".png".toList = ['.', 'p', 'n', 'g'] := rfl

/-- The element `{base}_{NN}.png` is an ordinary path element when `base` has no separator. -/
theorem name_isElem (s : List Char) (i : Nat) (h : '/' ∉ s) :
    isElem (s ++ '_' :: pad2 i ++ ".png".toList) := by
  have hl : 5 ≤ (s ++ '_' :: pad2 i ++ ".png".toList).length := by
    simp only [List.length_append, List.length_cons, png_eq, List.length_nil]
    have := pad2_length i
    omega
  refine ⟨?_, ?_, ?_, ?_⟩
  · intro e
    rw [e] at hl
    simp at hl
  · intro hm
    rw [List.mem_append, List.mem_append, List.mem_cons] at hm
    rcases hm with (hm | hm | hm) | hm
    · exact h hm
    · exact absurd hm (by decide)
    · have := pad2_isDigit i _ hm
      exact absurd this (by decide)
    · exact absurd hm (by decide)
  · intro e
    rw [e] at hl
    simp at hl
  · intro e
    rw [e] at hl
    simp at hl

theorem append_cons_unique (x : Char) (a : List Char) : ∀ (b s t : List Char), x ∉ s → x ∉ t →
    a ++ x :: s = b ++ x :: t → a = b ∧ s = t := by
  induction a with
  | nil =>
    intro b s t hs ht h
    cases b with
    | nil =>
      simp only [List.nil_append, List.cons.injEq, true_and] at h
      exact ⟨rfl, h⟩
    | cons c b2 =>
      simp only [List.nil_append, List.cons_append, List.cons.injEq] at h
      exact absurd (by rw [h.2]; simp) hs
  | cons c a2 ih =>
    intro b s t hs ht h
    cases b with
    | nil =>
      simp only [List.nil_append, List.cons_append, List.cons.injEq] at h
      exact absurd (by rw [← h.2]; simp) ht
    | cons d b2 =>
      simp only [List.cons_append, List.cons.injEq] at h
      obtain ⟨e1, e2⟩ := ih b2 s t hs ht h.2
      exact ⟨by rw [h.1, e1], e2⟩

/-- The element `{base}_{NN}.png` determines `base` and the index. -/
theorem name_injective (s t : List Char) (i j : Nat)
    (h : s ++ '_' :: pad2 i ++ ".png".toList = t ++ '_' :: pad2 j ++ ".png".toList) :
    s = t ∧ i = j := by
  have hx : ∀ k, '_' ∉ pad2 k ++ ".png".toList := by
    intro k hm
    rcases List.mem_append.mp hm with hm | hm
    · have := pad2_isDigit k _ hm
      exact absurd this (by decide)
    · exact absurd hm (by decide)
  have h2 : s ++ '_' :: (pad2 i ++ ".png".toList) = t ++ '_' :: (pad2 j ++ ".png".toList) := by
    simpa using h
  obtain ⟨e1, e2⟩ := append_cons_unique '_' s t _ _ (hx i) (hx j) h2
  exact ⟨e1, pad2_injective i j (List.append_cancel_right e2)⟩

theorem dispatchFrom_length (out arg : List Char) (rect : Detection → Rectangle)
    (dets : List Detection) : ∀ i, (dispatchFrom out arg rect i dets).length = dets.length := by
  induction dets with
  | nil => intro i; rfl
  | cons d ds ih =>
    intro i
    simp [dispatchFrom, ih]

theorem dispatchFrom_get (out arg : List Char) (rect : Detection → Rectangle)
    (dets : List Detection) : ∀ (i k : Nat) (det : Detection), dets[k]? = some det →
      (dispatchFrom out arg rect i dets)[k]? = some (filename out arg (i + k), rect det) := by
  induction dets with
  | nil => intro i k det h; simp at h
  | cons d ds ih =>
    intro i k det h
    cases k with
    | zero =>
      simp only [List.getElem?_cons_zero, Option.some.injEq] at h
      simp [dispatchFrom, h]
    | succ k =>
      simp only [List.getElem?_cons_succ] at h
      simp only [dispatchFrom, List.getElem?_cons_succ]
      rw [ih (i + 1) k det h]
      congr 3
      omega

theorem pad2_length_small (i : Nat) (h : i < 100) : (pad2 i).length = 2 := by
  have h1 : (Nat.toDigits 10 i).length ≤ 2 :=
    Nat.toDigitsCore_length 10 (by norm_num) (i + 1) i 2 (by norm_num; exact h) (by norm_num)
  unfold pad2
  rw [List.length_append, List.length_replicate]
  omega

/-! ## Facts about the tasks -/

theorem activeCount_congr (f g : Nat → ImgPc) (j : Nat)
    (h : ∀ a, a < j → ((f a = .idle ∨ f a = .done) ↔ (g a = .idle ∨ g a = .done))) :
    activeCount f j = activeCount g j := by
  induction j with
  | zero => rfl
  | succ j ih =>
    unfold activeCount
    rw [ih (fun a ha => h a (by omega))]
    have := h j (by omega)
    by_cases hf : f j = .idle ∨ f j = .done
    · rw [if_pos hf, if_pos (this.mp hf)]
    · rw [if_neg hf, if_neg (fun hg => hf (this.mpr hg))]

theorem activeCount_finish (f : Nat → ImgPc) (a : Nat) (hf : ¬ (f a = .idle ∨ f a = .done)) :
    ∀ j, a < j → activeCount (fun x => if x = a then .done else f x) j + 1 = activeCount f j := by
  intro j
  induction j with
  | zero => intro h; omega
  | succ j ih =>
    intro h
    unfold activeCount
    by_cases e : j = a
    · subst e
      have hc : activeCount (fun x => if x = j then ImgPc.done else f x) j = activeCount f j := by
        apply activeCount_congr
        intro b hb
        have : b ≠ j := by omega
        simp [this]
      rw [hc, if_neg hf]
      simp
    · have := ih (by omega)
      simp only [e, if_false]
      omega

theorem activeCount_zero (f : Nat → ImgPc) : ∀ j, activeCount f j = 0 →
    ∀ a, a < j → f a = .idle ∨ f a = .done := by
  intro j
  induction j with
  | zero => intro _ a ha; omega
  | succ j ih =>
    intro h a ha
    unfold activeCount at h
    by_cases hf : f j = .idle ∨ f j = .done
    · rw [if_pos hf] at h
      by_cases e : a = j
      · rw [e]; exact hf
      · exact ih (by omega) a (by omega)
    · rw [if_neg hf] at h
      omega

theorem ImgInv_congr (k : Nat → Nat) (s t : TaskState) (a : Nat) (h1 : t.img a = s.img a)
    (h2 : t.inner a = s.inner a) (h3 : ∀ x, t.det a x = s.det a x) (h : ImgInv k s a) :
    ImgInv k t a := by
  unfold ImgInv at h ⊢
  rw [h1, h2]
  simp only [h3]
  exact h

theorem MainInv_congr (n : Nat) (s t : TaskState) (h1 : t.mainPc = s.mainPc)
    (h2 : t.outer = s.outer) (h3 : t.img = s.img) (h : MainInv n s) : MainInv n t := by
  unfold MainInv at h ⊢
  rw [h1, h2, h3]
  exact h

/-- A started, unfinished image task has been spawned by `main`, which has not returned. -/
theorem MainInv_active (n : Nat) (s : TaskState) (a : Nat) (h : MainInv n s)
    (ha : ¬ (s.img a = .idle ∨ s.img a = .done)) :
    ∃ j, s.mainPc = .spawning j ∧ a < j := by
  unfold MainInv at h
  cases hm : s.mainPc with
  | spawning j =>
    rw [hm] at h
    refine ⟨j, rfl, ?_⟩
    by_contra hlt
    exact ha (Or.inl (h.2.1 a (by omega)))
  | returned =>
    rw [hm] at h
    exfalso
    rcases Nat.lt_or_ge a n with hl | hl
    · exact ha (Or.inr (h.1 a hl))
    · exact ha (Or.inl (h.2 a hl))

theorem step_main_inv (n : Nat) (k : Nat → Nat) (s t : TaskState) (h : Inv n k s)
    (hs : step n k s .main = some t) : Inv n k t := by
  obtain ⟨hm, hi⟩ := h
  unfold step at hs
  cases hp : s.mainPc with
  | returned => simp [hp] at hs
  | spawning j =>
    simp only [hp] at hs
    unfold MainInv at hm
    rw [hp] at hm
    obtain ⟨hj, hidle, hstarted, hout⟩ := hm
    by_cases hjn : j < n
    · rw [if_pos hjn] at hs
      injection hs with hs
      subst hs
      constructor
      · unfold MainInv
        simp only
        refine ⟨hjn, ?_, ?_, ?_⟩
        · intro a ha
          have : a ≠ j := by omega
          simp only [this, if_false]
          exact hidle a (by omega)
        · intro a ha
          by_cases e : a = j
          · simp [e]
          · simp only [e, if_false]
            exact hstarted a (by omega)
        · unfold activeCount
          have hc : activeCount (fun x => if x = j then ImgPc.loop 0 else s.img x) j =
              activeCount s.img j := by
            apply activeCount_congr
            intro b hb
            have : b ≠ j := by omega
            simp [this]
          rw [hc, hout]
          simp
      · intro a
        by_cases e : a = j
        · subst e
          have := hi a
          unfold ImgInv at this ⊢
          rw [hidle a le_rfl] at this
          simp only [if_true]
          exact ⟨Nat.zero_le _, fun x hx => absurd hx (Nat.not_lt_zero x),
            fun x _ => this.1 x, this.2⟩
        · exact ImgInv_congr k s _ a (by simp [e]) rfl (fun x => rfl) (hi a)
    · rw [if_neg hjn] at hs
      by_cases h0 : s.outer = 0
      · rw [if_pos h0] at hs
        injection hs with hs
        subst hs
        have hjn2 : j = n := by omega
        subst hjn2
        constructor
        · unfold MainInv
          simp only
          refine ⟨?_, hidle⟩
          intro a ha
          rcases activeCount_zero s.img j (by omega) a ha with h1 | h1
          · exact absurd h1 (hstarted a ha)
          · exact h1
        · intro a
          exact ImgInv_congr k s _ a rfl rfl (fun x => rfl) (hi a)
      · rw [if_neg h0] at hs
        exact absurd hs (by simp)

/-- The invariant of `main` after a move of an image task that stays unfinished. -/
theorem MainInv_image_active (n : Nat) (s : TaskState) (a : Nat) (p : ImgPc) (h : MainInv n s)
    (ha : ¬ (s.img a = .idle ∨ s.img a = .done)) (hp : ¬ (p = .idle ∨ p = .done))
    (t : TaskState) (h1 : t.mainPc = s.mainPc) (h2 : t.outer = s.outer)
    (h3 : t.img = fun x => if x = a then p else s.img x) : MainInv n t := by
  obtain ⟨j, hj, haj⟩ := MainInv_active n s a h ha
  unfold MainInv at h ⊢
  rw [h1, h2, h3]
  rw [hj] at h ⊢
  obtain ⟨hjn, hidle, hstarted, hout⟩ := h
  refine ⟨hjn, ?_, ?_, ?_⟩
  · intro b hb
    have : b ≠ a := by omega
    simp only [this, if_false]
    exact hidle b hb
  · intro b hb
    by_cases e : b = a
    · simp only [e, if_true]
      exact fun hh => hp (Or.inl hh)
    · simp only [e, if_false]
      exact hstarted b hb
  · rw [hout]
    apply activeCount_congr
    intro b _
    by_cases e : b = a
    · subst e
      simp only [if_true]
      exact ⟨fun hh => absurd hh ha, fun hh => absurd hh hp⟩
    · simp [e]

/-- The invariant of `main` after the last move of an image task. -/
theorem MainInv_image_done (n : Nat) (s : TaskState) (a : Nat) (h : MainInv n s)
    (ha : ¬ (s.img a = .idle ∨ s.img a = .done))
    (t : TaskState) (h1 : t.mainPc = s.mainPc) (h2 : t.outer = s.outer - 1)
    (h3 : t.img = fun x => if x = a then .done else s.img x) : MainInv n t := by
  obtain ⟨j, hj, haj⟩ := MainInv_active n s a h ha
  unfold MainInv at h ⊢
  rw [h1, h2, h3]
  rw [hj] at h ⊢
  obtain ⟨hjn, hidle, hstarted, hout⟩ := h
  refine ⟨hjn, ?_, ?_, ?_⟩
  · intro b hb
    have : b ≠ a := by omega
    simp only [this, if_false]
    exact hidle b hb
  · intro b hb
    by_cases e : b = a
    · simp [e]
    · simp only [e, if_false]
      exact hstarted b hb
  · have := activeCount_finish s.img a ha j haj
    omega

theorem step_image_inv (n : Nat) (k : Nat → Nat) (s t : TaskState) (a : Nat) (h : Inv n k s)
    (hs : step n k s (.image a) = some t) : Inv n k t := by
  obtain ⟨hm, hi⟩ := h
  have hia := hi a
  unfold step at hs
  unfold ImgInv at hia
  cases hp : s.img a with
  | idle => simp [hp] at hs
  | done => simp [hp] at hs
  | loop i =>
    simp only [hp] at hs hia
    have hact : ¬ (s.img a = .idle ∨ s.img a = .done) := by simp [hp]
    obtain ⟨hik, hfin, hidle, hin⟩ := hia
    by_cases hlt : i < k a
    · rw [if_pos hlt] at hs
      injection hs with hs
      subst hs
      constructor
      · exact MainInv_image_active n s a (.waiting i) hm hact (by simp) _ rfl rfl rfl
      · intro b
        by_cases e : b = a
        · subst e
          unfold ImgInv
          simp only [if_true, true_and]
          refine ⟨hlt, ?_, ?_, ?_⟩
          · intro x hx
            have : x ≠ i := by omega
            simp only [this, if_false]
            exact hfin x hx
          · intro x hx
            have : x ≠ i := by omega
            simp only [this, if_false]
            exact hidle x (by omega)
          · left
            simp [hin]
        · exact ImgInv_congr k s _ b (by simp [e]) (by simp [e]) (fun x => by simp [e]) (hi b)
    · rw [if_neg hlt] at hs
      injection hs with hs
      subst hs
      have hik2 : i = k a := by omega
      constructor
      · exact MainInv_image_done n s a hm hact _ rfl rfl rfl
      · intro b
        by_cases e : b = a
        · subst e
          unfold ImgInv
          simp only [if_true]
          exact ⟨fun x hx => hfin x (by omega), fun x hx => hidle x (by omega), hin⟩
        · exact ImgInv_congr k s _ b (by simp [e]) rfl (fun x => rfl) (hi b)
  | waiting i =>
    simp only [hp] at hs hia
    have hact : ¬ (s.img a = .idle ∨ s.img a = .done) := by simp [hp]
    obtain ⟨hik, hfin, hidle, hcur⟩ := hia
    by_cases h0 : s.inner a = 0
    · rw [if_pos h0] at hs
      injection hs with hs
      subst hs
      have hdone : s.det a i = .finished := by
        rcases hcur with hc | hc
        · omega
        · exact hc.1
      constructor
      · exact MainInv_image_active n s a (.loop (i + 1)) hm hact (by simp) _ rfl rfl rfl
      · intro b
        by_cases e : b = a
        · subst e
          unfold ImgInv
          simp only [if_true]
          refine ⟨hik, ?_, fun x hx => hidle x (by omega), h0⟩
          intro x hx
          by_cases ex : x = i
          · rw [ex]; exact hdone
          · exact hfin x (by omega)
        · exact ImgInv_congr k s _ b (by simp [e]) rfl (fun x => rfl) (hi b)
    · rw [if_neg h0] at hs
      exact absurd hs (by simp)

theorem step_det_inv (n : Nat) (k : Nat → Nat) (s t : TaskState) (a i : Nat) (h : Inv n k s)
    (hs : step n k s (.det a i) = some t) : Inv n k t := by
  obtain ⟨hm, hi⟩ := h
  have hia := hi a
  unfold step at hs
  cases hd : s.det a i with
  | idle => simp [hd] at hs
  | finished => simp [hd] at hs
  | running =>
    simp only [hd] at hs
    injection hs with hs
    subst hs
    constructor
    · exact MainInv_congr n s _ rfl rfl rfl hm
    · intro b
      by_cases e : b = a
      · subst e
        unfold ImgInv at hia ⊢
        cases hp : s.img b with
        | idle =>
          rw [hp] at hia
          rw [hia.1 i] at hd
          exact absurd hd (by simp)
        | done =>
          rw [hp] at hia
          rcases Nat.lt_or_ge i (k b) with hl | hl
          · rw [hia.1 i hl] at hd
            exact absurd hd (by simp)
          · rw [hia.2.1 i hl] at hd
            exact absurd hd (by simp)
        | loop j =>
          rw [hp] at hia
          rcases Nat.lt_or_ge i j with hl | hl
          · rw [hia.2.1 i hl] at hd
            exact absurd hd (by simp)
          · rw [hia.2.2.1 i hl] at hd
            exact absurd hd (by simp)
        | waiting j =>
          rw [hp] at hia
          obtain ⟨hjk, hfin, hidle, hcur⟩ := hia
          have hij : i = j := by
            rcases Nat.lt_trichotomy i j with hl | hl | hl
            · rw [hfin i hl] at hd
              exact absurd hd (by simp)
            · exact hl
            · rw [hidle i hl] at hd
              exact absurd hd (by simp)
          subst hij
          have hin : s.inner b = 1 := by
            rcases hcur with hc | hc
            · exact hc.2
            · rw [hc.1] at hd
              exact absurd hd (by simp)
          simp only [hp, if_true, true_and]
          refine ⟨hjk, ?_, ?_, ?_⟩
          · intro x hx
            have : x ≠ i := by omega
            simp only [this, if_false]
            exact hfin x hx
          · intro x hx
            have : x ≠ i := by omega
            simp only [this, if_false]
            exact hidle x hx
          · right
            simp [hin]
      · exact ImgInv_congr k s _ b rfl (by simp [e]) (fun x => by simp [e]) (hi b)

theorem init_inv (n : Nat) (k : Nat → Nat) : Inv n k TaskState.init := by
  constructor
  · unfold MainInv TaskState.init
    simp [activeCount]
  · intro a
    unfold ImgInv TaskState.init
    simp

theorem exec_inv (n : Nat) (k : Nat → Nat) (sched : List Thread) :
    ∀ s, Inv n k s → Inv n k (exec n k s sched) := by
  induction sched with
  | nil => intro s h; exact h
  | cons t ts ih =>
    intro s h
    unfold exec
    cases hs : step n k s t with
    | none => exact ih s h
    | some s2 =>
      apply ih
      cases t with
      | main => exact step_main_inv n k s s2 h hs
      | image a => exact step_image_inv n k s s2 a h hs
      | det a i => exact step_det_inv n k s s2 a i h hs

/-! ## The crop rectangle -/

/-- C1, as stated, fails: with `-size 256 -face 0.5`, a detection of scale 40 at (50, 50) in a
100 x 100 image is cropped to the rectangle (0,0)-(256,256), whose far corner lies outside the
image. -/
theorem computeCrop_not_contained :
    computeCrop 0 256 (1 / 2) ⟨50, 50, 40, .fin 1⟩ 100 100 = ⟨⟨0, 0⟩, ⟨256, 256⟩⟩ ∧
      ¬ (computeCrop 0 256 (1 / 2) ⟨50, 50, 40, .fin 1⟩ 100 100).Max.X ≤ 100 := by
  have e : effectiveSize 0 256 (1 / 2) ⟨50, 50, 40, .fin 1⟩ = 256 := by
    unfold effectiveSize
    rw [quoToInt_exact 0 40 80 (1 / 2) (by norm_num) (by norm_num) (by norm_num) (by norm_num)]
    decide
  unfold computeCrop
  rw [e]
  decide

/-- C1, amended: for an image of `cols` by `rows` pixels and a non-negative side length, the crop
rectangle of every detection starts at non-negative coordinates, and its far edges stay inside
the image exactly when the side does not exceed the image's width, respectively height. -/
theorem computeCrop_contained_iff (ovf size : Int) (face : ℚ) (det : Detection) (cols rows : Int)
    (hsize : isInt64 size) (hcols : isInt64 cols) (hrows : isInt64 rows)
    (hc0 : 0 ≤ cols) (hr0 : 0 ≤ rows) (hside : 0 ≤ effectiveSize ovf size face det) :
    0 ≤ (computeCrop ovf size face det cols rows).Min.X ∧
    0 ≤ (computeCrop ovf size face det cols rows).Min.Y ∧
    ((computeCrop ovf size face det cols rows).Max.X ≤ cols ↔
      effectiveSize ovf size face det ≤ cols) ∧
    ((computeCrop ovf size face det cols rows).Max.Y ≤ rows ↔
      effectiveSize ovf size face det ≤ rows) := by
  have hs := effectiveSize_isInt64 ovf size face det hsize
  simp only [computeCrop, cropRect, Point.Add]
  refine ⟨le_max_left _ _, le_max_left _ _, ?_, ?_⟩
  · constructor
    · intro h
      by_contra hlt
      have := axis_exceeds (sub64 det.Col (quo64 (effectiveSize ovf size face det) 2))
        _ cols hcols hc0 hs (by omega)
      omega
    · intro h
      have := axis_fits (sub64 det.Col (quo64 (effectiveSize ovf size face det) 2))
        _ cols hcols hside h
      omega
  · constructor
    · intro h
      by_contra hlt
      have := axis_exceeds (sub64 det.Row (quo64 (effectiveSize ovf size face det) 2))
        _ rows hrows hr0 hs (by omega)
      omega
    · intro h
      have := axis_fits (sub64 det.Row (quo64 (effectiveSize ovf size face det) 2))
        _ rows hrows hside h
      omega

/-- Witness of `computeCrop_contained_iff`: the detection (col 100, row 120, scale 80) in a
640 x 480 image with `-size 256 -face 0.5`. -/
theorem computeCrop_contained_iff_witness :
    0 ≤ (computeCrop 0 256 (1 / 2) ⟨120, 100, 80, .fin 1⟩ 640 480).Min.X ∧
    0 ≤ (computeCrop 0 256 (1 / 2) ⟨120, 100, 80, .fin 1⟩ 640 480).Min.Y ∧
    ((computeCrop 0 256 (1 / 2) ⟨120, 100, 80, .fin 1⟩ 640 480).Max.X ≤ 640 ↔
      effectiveSize 0 256 (1 / 2) ⟨120, 100, 80, .fin 1⟩ ≤ 640) ∧
    ((computeCrop 0 256 (1 / 2) ⟨120, 100, 80, .fin 1⟩ 640 480).Max.Y ≤ 480 ↔
      effectiveSize 0 256 (1 / 2) ⟨120, 100, 80, .fin 1⟩ ≤ 480) :=
  computeCrop_contained_iff 0 256 (1 / 2) ⟨120, 100, 80, .fin 1⟩ 640 480 (by decide) (by decide)
    (by decide) (by decide) (by decide) (by rw [effectiveSize_scale80]; decide)

/-- C9: when the side length `side` satisfies `1 ≤ side ≤ cols` and `side ≤ rows`, the top-left
corner is `(clamp(col - side/2, 0, cols - side), clamp(row - side/2, 0, rows - side))`, the
subtraction being Go's on `int` (the exact difference whenever that is a value of `int`), so
`0 ≤ minX ≤ cols - side`, `0 ≤ minY ≤ rows - side`, the far corner is the top-left corner plus
`(side, side)` and the rectangle lies inside the image, wherever the detection centre is. -/
theorem computeCrop_clamped (ovf size : Int) (face : ℚ) (det : Detection) (cols rows : Int)
    (hcols : isInt64 cols) (hrows : isInt64 rows)
    (h1 : 1 ≤ effectiveSize ovf size face det)
    (hc : effectiveSize ovf size face det ≤ cols)
    (hr : effectiveSize ovf size face det ≤ rows) :
    (computeCrop ovf size face det cols rows).Min.X =
      specClamp (sub64 det.Col (effectiveSize ovf size face det / 2)) 0
        (cols - effectiveSize ovf size face det) ∧
    (computeCrop ovf size face det cols rows).Min.Y =
      specClamp (sub64 det.Row (effectiveSize ovf size face det / 2)) 0
        (rows - effectiveSize ovf size face det) ∧
    (isInt64 (det.Col - effectiveSize ovf size face det / 2) →
      (computeCrop ovf size face det cols rows).Min.X =
        specClamp (det.Col - effectiveSize ovf size face det / 2) 0
          (cols - effectiveSize ovf size face det)) ∧
    (isInt64 (det.Row - effectiveSize ovf size face det / 2) →
      (computeCrop ovf size face det cols rows).Min.Y =
        specClamp (det.Row - effectiveSize ovf size face det / 2) 0
          (rows - effectiveSize ovf size face det)) ∧
    0 ≤ (computeCrop ovf size face det cols rows).Min.X ∧
    (computeCrop ovf size face det cols rows).Min.X ≤ cols - effectiveSize ovf size face det ∧
    0 ≤ (computeCrop ovf size face det cols rows).Min.Y ∧
    (computeCrop ovf size face det cols rows).Min.Y ≤ rows - effectiveSize ovf size face det ∧
    (computeCrop ovf size face det cols rows).Max.X =
      (computeCrop ovf size face det cols rows).Min.X + effectiveSize ovf size face det ∧
    (computeCrop ovf size face det cols rows).Max.Y =
      (computeCrop ovf size face det cols rows).Min.Y + effectiveSize ovf size face det ∧
    (computeCrop ovf size face det cols rows).Max.X ≤ cols ∧
    (computeCrop ovf size face det cols rows).Max.Y ≤ rows := by
  have h0 : 0 ≤ effectiveSize ovf size face det := by omega
  have ex : sub64 cols (effectiveSize ovf size face det) =
      cols - effectiveSize ovf size face det := by
    apply wrap64_eq
    unfold isInt64 at *
    omega
  have ey : sub64 rows (effectiveSize ovf size face det) =
      rows - effectiveSize ovf size face det := by
    apply wrap64_eq
    unfold isInt64 at *
    omega
  have ax := axis_fits (sub64 det.Col (quo64 (effectiveSize ovf size face det) 2))
    _ cols hcols h0 hc
  have ay := axis_fits (sub64 det.Row (quo64 (effectiveSize ovf size face det) 2))
    _ rows hrows h0 hr
  simp only [computeCrop, cropRect, Point.Add]
  rw [quo64_two _ h0] at ax ay ⊢
  rw [ex] at ax ⊢
  rw [ey] at ay ⊢
  refine ⟨max_min_eq_specClamp _ _ (by omega), max_min_eq_specClamp _ _ (by omega), ?_, ?_,
    ax.1, ax.2.1, ay.1, ay.2.1, ax.2.2, ay.2.2, ?_, ?_⟩
  · intro hi
    unfold sub64
    rw [wrap64_eq _ hi]
    exact max_min_eq_specClamp _ _ (by omega)
  · intro hi
    unfold sub64
    rw [wrap64_eq _ hi]
    exact max_min_eq_specClamp _ _ (by omega)
  · omega
  · omega

/-- Witness of `computeCrop_clamped`: a detection beyond the left edge (col -5, row 120,
scale 80) in a 640 x 480 image with `-size 256 -face 0.5`. -/
theorem computeCrop_clamped_witness :
    (computeCrop 0 256 (1 / 2) ⟨120, -5, 80, .fin 1⟩ 640 480).Min.X = 0 ∧
    (computeCrop 0 256 (1 / 2) ⟨120, -5, 80, .fin 1⟩ 640 480).Max.X ≤ 640 ∧
    (computeCrop 0 256 (1 / 2) ⟨120, -5, 80, .fin 1⟩ 640 480).Max.Y ≤ 480 := by
  have e := effectiveSize_scale80 0 120 (-5) (.fin 1)
  have h := computeCrop_clamped 0 256 (1 / 2) ⟨120, -5, 80, .fin 1⟩ 640 480 (by decide) (by decide)
    (by rw [e]; decide) (by rw [e]; decide) (by rw [e]; decide)
  refine ⟨?_, h.2.2.2.2.2.2.2.2.2.2.1, h.2.2.2.2.2.2.2.2.2.2.2⟩
  rw [h.2.2.1 (by rw [e]; decide), e]
  decide

/-- C10: for a detection centre inside the image (`0 ≤ col < cols`, `0 ≤ row < rows`) and a side
length with `1 ≤ side ≤ min(cols, rows)`, the crop rectangle contains the centre:
`minX ≤ col < maxX` and `minY ≤ row < maxY`. -/
theorem computeCrop_contains_centre (ovf size : Int) (face : ℚ) (det : Detection)
    (cols rows : Int) (hcols : isInt64 cols) (hrows : isInt64 rows)
    (hx0 : 0 ≤ det.Col) (hx1 : det.Col < cols) (hy0 : 0 ≤ det.Row) (hy1 : det.Row < rows)
    (h1 : 1 ≤ effectiveSize ovf size face det)
    (hm : effectiveSize ovf size face det ≤ min cols rows) :
    (computeCrop ovf size face det cols rows).Min.X ≤ det.Col ∧
    det.Col < (computeCrop ovf size face det cols rows).Max.X ∧
    (computeCrop ovf size face det cols rows).Min.Y ≤ det.Row ∧
    det.Row < (computeCrop ovf size face det cols rows).Max.Y := by
  have h0 : 0 ≤ effectiveSize ovf size face det := by omega
  have hc : effectiveSize ovf size face det ≤ cols := le_trans hm (min_le_left _ _)
  have hr : effectiveSize ovf size face det ≤ rows := le_trans hm (min_le_right _ _)
  have ix : isInt64 (det.Col - effectiveSize ovf size face det / 2) := by
    unfold isInt64 at *
    omega
  have iy : isInt64 (det.Row - effectiveSize ovf size face det / 2) := by
    unfold isInt64 at *
    omega
  have ex : sub64 cols (effectiveSize ovf size face det) =
      cols - effectiveSize ovf size face det := by
    apply wrap64_eq
    unfold isInt64 at *
    omega
  have ey : sub64 rows (effectiveSize ovf size face det) =
      rows - effectiveSize ovf size face det := by
    apply wrap64_eq
    unfold isInt64 at *
    omega
  have ax := axis_fits (sub64 det.Col (quo64 (effectiveSize ovf size face det) 2))
    _ cols hcols h0 hc
  have ay := axis_fits (sub64 det.Row (quo64 (effectiveSize ovf size face det) 2))
    _ rows hrows h0 hr
  simp only [computeCrop, cropRect, Point.Add]
  rw [quo64_two _ h0] at ax ay ⊢
  rw [ex] at ax ⊢
  rw [ey] at ay ⊢
  rw [ax.2.2, ay.2.2]
  unfold sub64
  rw [wrap64_eq _ ix, wrap64_eq _ iy]
  omega

/-- Witness of `computeCrop_contains_centre`: the detection (col 100, row 120, scale 80) in a
640 x 480 image with `-size 256 -face 0.5`; its corner is clamped to the left and top edges. -/
theorem computeCrop_contains_centre_witness :
    (computeCrop 0 256 (1 / 2) ⟨120, 100, 80, .fin 1⟩ 640 480).Min.X ≤ 100 ∧
    100 < (computeCrop 0 256 (1 / 2) ⟨120, 100, 80, .fin 1⟩ 640 480).Max.X ∧
    (computeCrop 0 256 (1 / 2) ⟨120, 100, 80, .fin 1⟩ 640 480).Min.Y ≤ 120 ∧
    120 < (computeCrop 0 256 (1 / 2) ⟨120, 100, 80, .fin 1⟩ 640 480).Max.Y :=
  computeCrop_contains_centre 0 256 (1 / 2) ⟨120, 100, 80, .fin 1⟩ 640 480 (by decide) (by decide)
    (by decide) (by decide) (by decide) (by decide)
    (by rw [effectiveSize_scale80]; decide) (by rw [effectiveSize_scale80]; decide)

/-- C2, as stated, fails: with `-size 256 -face 2^-60` and a detection of scale 16 the exact
quotient `scale / face` is `2 ^ 64`, and no value the conversion to `int` can yield puts the side
within 1 of `max(256, 2 ^ 64)`; with `-size 256 -face 1` and a detection of scale `2 ^ 53 + 1`
the conversion to `float64` rounds the scale and the side is `2 ^ 53`, at distance 1. -/
theorem effectiveSize_not_close :
    (¬ ∃ ovf : Int, |((effectiveSize ovf 256 (1 / 2 ^ 60) ⟨0, 0, 16, .fin 1⟩ : Int) : ℚ) -
      max ((256 : Int) : ℚ) (((16 : Int) : ℚ) / (1 / 2 ^ 60))| < 1) ∧
    (¬ ∃ ovf : Int, |((effectiveSize ovf 256 1 ⟨0, 0, 2 ^ 53 + 1, .fin 1⟩ : Int) : ℚ) -
      max ((256 : Int) : ℚ) (((2 ^ 53 + 1 : Int) : ℚ) / 1)| < 1) := by
  constructor
  · rintro ⟨ovf, h⟩
    have hw := wrap64_isInt64 ovf
    have hq : ((16 : Int) : ℚ) / (1 / 2 ^ 60) = 2 ^ 64 := by norm_num
    have hm : max ((256 : Int) : ℚ) (2 ^ 64) = 2 ^ 64 := by norm_num
    have hs : effectiveSize ovf 256 (1 / 2 ^ 60) ⟨0, 0, 16, .fin 1⟩ < 2 ^ 63 := by
      unfold effectiveSize
      rw [quoToInt_overflow]
      unfold isInt64 at hw
      omega
    have hs2 : ((effectiveSize ovf 256 (1 / 2 ^ 60) ⟨0, 0, 16, .fin 1⟩ : Int) : ℚ) < 2 ^ 63 := by
      exact_mod_cast hs
    rw [hq, hm, abs_lt] at h
    linarith [h.1]
  · rintro ⟨ovf, h⟩
    have hs : effectiveSize ovf 256 1 ⟨0, 0, 2 ^ 53 + 1, .fin 1⟩ = 2 ^ 53 := by
      unfold effectiveSize
      rw [quoToInt_inexact]
      decide
    rw [hs] at h
    norm_num at h

/-- C2, amended: for a detection with `scale ≥ 0`, a face factor in `(0, 1]` and a quotient
`scale / face` below `2 ^ 53`, the crop rectangle is a square whose side is an integer never
smaller than the minimum size and less than 1 away from `max(size, scale / face)`; for the
detection (col 100, row 120, scale 80) with `-size 256 -face 0.5` the side is 256. -/
theorem effectiveSize_spec (ovf size : Int) (face : ℚ) (det : Detection) (cols rows : Int)
    (hsize : isInt64 size) (hcols : isInt64 cols) (hrows : isInt64 rows)
    (hc0 : 0 ≤ cols) (hr0 : 0 ≤ rows)
    (hs : 0 ≤ det.Scale) (hf0 : 0 < face) (hf1 : face ≤ 1)
    (hq : (det.Scale : ℚ) / face < 2 ^ 53) :
    (computeCrop ovf size face det cols rows).Max.X -
      (computeCrop ovf size face det cols rows).Min.X = effectiveSize ovf size face det ∧
    (computeCrop ovf size face det cols rows).Max.Y -
      (computeCrop ovf size face det cols rows).Min.Y = effectiveSize ovf size face det ∧
    size ≤ effectiveSize ovf size face det ∧
    |((effectiveSize ovf size face det : Int) : ℚ) - max (size : ℚ) ((det.Scale : ℚ) / face)| < 1 ∧
    effectiveSize ovf 256 (1 / 2) ⟨120, 100, 80, det.Q⟩ = 256 := by
  have hs' : (0 : ℚ) ≤ det.Scale := by exact_mod_cast hs
  have hle : (det.Scale : ℚ) ≤ (det.Scale : ℚ) / face := le_div_self hs' hf0 hf1
  have hlt : det.Scale < 2 ^ 53 := by
    have : (det.Scale : ℚ) < 2 ^ 53 := lt_of_le_of_lt hle hq
    exact_mod_cast this
  have hb := quoToInt_bounds ovf det.Scale face hs hlt hf0 hq
  have hfl : 0 ≤ ⌊(det.Scale : ℚ) / face⌋ := Int.floor_nonneg.mpr (le_trans hs' hle)
  have hside0 : 0 ≤ effectiveSize ovf size face det := by
    unfold effectiveSize
    omega
  have hi := effectiveSize_isInt64 ovf size face det hsize
  refine ⟨?_, ?_, ?_, ?_, effectiveSize_scale80 ovf 120 100 det.Q⟩
  · simp only [computeCrop, cropRect, Point.Add]
    rcases le_or_lt (effectiveSize ovf size face det) cols with h | h
    · have := axis_fits (sub64 det.Col (quo64 (effectiveSize ovf size face det) 2))
        _ cols hcols hside0 h
      omega
    · have := axis_exceeds (sub64 det.Col (quo64 (effectiveSize ovf size face det) 2))
        _ cols hcols hc0 hi h
      omega
  · simp only [computeCrop, cropRect, Point.Add]
    rcases le_or_lt (effectiveSize ovf size face det) rows with h | h
    · have := axis_fits (sub64 det.Row (quo64 (effectiveSize ovf size face det) 2))
        _ rows hrows hside0 h
      omega
    · have := axis_exceeds (sub64 det.Row (quo64 (effectiveSize ovf size face det) 2))
        _ rows hrows hr0 hi h
      omega
  · exact le_max_left _ _
  · have h1 : ((quoToInt ovf det.Scale face : Int) : ℚ) - (det.Scale : ℚ) / face < 1 := by
      have : ((quoToInt ovf det.Scale face : Int) : ℚ) ≤ (⌈(det.Scale : ℚ) / face⌉ : ℚ) := by
        exact_mod_cast hb.2
      linarith [Int.ceil_lt_add_one ((det.Scale : ℚ) / face)]
    have h2 : (det.Scale : ℚ) / face - ((quoToInt ovf det.Scale face : Int) : ℚ) < 1 := by
      have : (⌊(det.Scale : ℚ) / face⌋ : ℚ) ≤ ((quoToInt ovf det.Scale face : Int) : ℚ) := by
        exact_mod_cast hb.1
      linarith [Int.sub_one_lt_floor ((det.Scale : ℚ) / face)]
    have h3 : |((quoToInt ovf det.Scale face : Int) : ℚ) - (det.Scale : ℚ) / face| < 1 := by
      rw [abs_lt]
      constructor <;> linarith
    unfold effectiveSize
    rw [Int.cast_max]
    calc |max (size : ℚ) ((quoToInt ovf det.Scale face : Int) : ℚ) -
            max (size : ℚ) ((det.Scale : ℚ) / face)|
        ≤ |((quoToInt ovf det.Scale face : Int) : ℚ) - (det.Scale : ℚ) / face| := by
          rw [max_comm (size : ℚ), max_comm (size : ℚ)]
          exact abs_max_sub_max_le_abs _ _ _
      _ < 1 := h3

/-- Witness of `effectiveSize_spec`: the detection (col 100, row 120, scale 80) in a 640 x 480
image with `-size 256 -face 0.5`. -/
theorem effectiveSize_spec_witness :
    (computeCrop 0 256 (1 / 2) ⟨120, 100, 80, .fin 1⟩ 640 480).Max.X -
      (computeCrop 0 256 (1 / 2) ⟨120, 100, 80, .fin 1⟩ 640 480).Min.X = 256 ∧
    (computeCrop 0 256 (1 / 2) ⟨120, 100, 80, .fin 1⟩ 640 480).Max.Y -
      (computeCrop 0 256 (1 / 2) ⟨120, 100, 80, .fin 1⟩ 640 480).Min.Y = 256 := by
  have h := effectiveSize_spec 0 256 (1 / 2) ⟨120, 100, 80, .fin 1⟩ 640 480 (by decide) (by decide)
    (by decide) (by decide) (by decide) (by decide) (by norm_num) (by norm_num) (by norm_num)
  rw [effectiveSize_scale80] at h
  exact ⟨h.1, h.2.1⟩

/-- C3, as stated, fails: in a 100 x 100 image a detection of the largest scale the scan allows,
100, gets the side 200 with `-size 10 -face 0.5`, and a detection of scale 40 gets the side 256
with `-size 256 -face 0.5`; both exceed `min(cols, rows) = 100`. -/
theorem effectiveSize_exceeds_min :
    (100 : Int) ≤ min 100 100 ∧
    ¬ effectiveSize 0 10 (1 / 2) ⟨50, 50, 100, .fin 1⟩ ≤ min 100 100 ∧
    ¬ effectiveSize 0 256 (1 / 2) ⟨50, 50, 40, .fin 1⟩ ≤ min 100 100 := by
  have e1 : effectiveSize 0 10 (1 / 2) ⟨50, 50, 100, .fin 1⟩ = 200 := by
    unfold effectiveSize
    rw [quoToInt_exact 0 100 200 (1 / 2) (by norm_num) (by norm_num) (by norm_num) (by norm_num)]
    decide
  have e2 : effectiveSize 0 256 (1 / 2) ⟨50, 50, 40, .fin 1⟩ = 256 := by
    unfold effectiveSize
    rw [quoToInt_exact 0 40 80 (1 / 2) (by norm_num) (by norm_num) (by norm_num) (by norm_num)]
    decide
  rw [e1, e2]
  decide

/-- C3, amended: in an image with `min(cols, rows) < 2 ^ 53`, for a minimum size that is at most
`min(cols, rows)`, a face factor of at least 1 and a detection with
`0 ≤ scale ≤ min(cols, rows)`, the side length is at most `min(cols, rows)`. -/
theorem effectiveSize_le_min (ovf size : Int) (face : ℚ) (det : Detection) (cols rows : Int)
    (hs0 : 0 ≤ det.Scale) (hsc : det.Scale ≤ min cols rows) (hm : min cols rows < 2 ^ 53)
    (hsz : size ≤ min cols rows) (hf : 1 ≤ face) :
    effectiveSize ovf size face det ≤ min cols rows := by
  have hf0 : (0 : ℚ) < face := lt_of_lt_of_le one_pos hf
  have hs' : (0 : ℚ) ≤ det.Scale := by exact_mod_cast hs0
  have hle : (det.Scale : ℚ) / face ≤ det.Scale := div_le_self hs' hf
  have hlt : det.Scale < 2 ^ 53 := lt_of_le_of_lt hsc hm
  have hq : (det.Scale : ℚ) / face < 2 ^ 53 := by
    have : (det.Scale : ℚ) < 2 ^ 53 := by exact_mod_cast hlt
    exact lt_of_le_of_lt hle this
  have hb := quoToInt_bounds ovf det.Scale face hs0 hlt hf0 hq
  have hc : ⌈(det.Scale : ℚ) / face⌉ ≤ det.Scale := Int.ceil_le.mpr hle
  unfold effectiveSize
  omega

/-- Witness of `effectiveSize_le_min`: `-size 64 -face 1` and a detection of scale 80 in a
640 x 480 image. -/
theorem effectiveSize_le_min_witness :
    effectiveSize 0 64 1 ⟨120, 100, 80, .fin 1⟩ ≤ min 640 480 :=
  effectiveSize_le_min 0 64 1 ⟨120, 100, 80, .fin 1⟩ 640 480 (by decide) (by decide) (by decide)
    (by decide) (by norm_num)

/-! ## The score filter -/

theorem DeleteFunc_eq_filter {α : Type} (s : List α) (del : α → Bool) :
    DeleteFunc s del = s.filter (fun x => !del x) := by
  induction s with
  | nil => rfl
  | cons x xs ih =>
    unfold DeleteFunc
    by_cases h : del x = true
    · simp [h, ih]
    · simp [h, ih]

/-- Away from NaN, `a < b` is the negation of `a >= b`. -/
theorem FloatVal.lt_eq_not_ge (a b : FloatVal) (ha : a ≠ .nan) (hb : b ≠ .nan) :
    FloatVal.lt a b = !FloatVal.ge a b := by
  cases a <;> cases b <;> simp [FloatVal.lt, FloatVal.ge] at ha hb ⊢
  rename_i x y
  by_cases h : x < y
  · simp [h]
  · simp [h, not_lt.mp h]

theorem filter_length_partition {α : Type} (f g : α → Bool) (l : List α)
    (h : ∀ x ∈ l, g x = !f x) : (l.filter f).length + (l.filter g).length = l.length := by
  induction l with
  | nil => rfl
  | cons x xs ih =>
    have hx := h x (by simp)
    have ih2 := ih (fun y hy => h y (List.mem_cons_of_mem _ hy))
    cases hf : f x
    · rw [hf] at hx
      simp only [List.filter_cons, hf, hx, Bool.not_false, if_true, Bool.false_eq_true, if_false,
        List.length_cons]
      omega
    · rw [hf] at hx
      simp only [List.filter_cons, hf, hx, Bool.not_true, if_true, Bool.false_eq_true, if_false,
        List.length_cons]
      omega

/-- C4, as stated, fails: with `-score NaN` the comparison `float64(d.Q) < score` is false for
every detection, so a detection of score 0.3 is kept although `0.3 >= NaN` does not hold; and a
detection whose score is NaN is kept with `-score 0.5` although `NaN >= 0.5` does not hold. -/
theorem scoreFilter_nan :
    scoreFilter .nan [⟨50, 50, 40, .fin (3 / 10)⟩] = [⟨50, 50, 40, .fin (3 / 10)⟩] ∧
    FloatVal.ge (.fin (3 / 10)) .nan = false ∧
    scoreFilter (.fin (1 / 2)) [⟨50, 50, 40, .nan⟩] = [⟨50, 50, 40, .nan⟩] ∧
    FloatVal.ge .nan (.fin (1 / 2)) = false :=
  ⟨rfl, rfl, rfl, rfl⟩

/-- C4, amended: for a minimum score that is not NaN and detections whose scores are not NaN, the
score filter keeps exactly the detections with `score ≥ minimumScore`, discards exactly those
with `score < minimumScore`, and leaves the kept detections in the relative order they had in
the input list. -/
theorem scoreFilter_spec (score : FloatVal) (dets : List Detection) (hs : score ≠ .nan)
    (hd : ∀ d ∈ dets, d.Q ≠ .nan) :
    scoreFilter score dets = dets.filter (fun d => FloatVal.ge d.Q score) ∧
    (∀ d, d ∈ scoreFilter score dets ↔ d ∈ dets ∧ FloatVal.ge d.Q score = true) ∧
    (∀ d, d ∈ dets → (d ∉ scoreFilter score dets ↔ FloatVal.lt d.Q score = true)) ∧
    (scoreFilter score dets).Sublist dets ∧
    (scoreFilter score dets).length + (dets.filter (fun d => FloatVal.lt d.Q score)).length =
      dets.length := by
  have hq : ∀ d ∈ dets, FloatVal.lt d.Q score = !FloatVal.ge d.Q score :=
    fun d h => FloatVal.lt_eq_not_ge d.Q score (hd d h) hs
  have e : scoreFilter score dets = dets.filter (fun d => FloatVal.ge d.Q score) := by
    unfold scoreFilter
    rw [DeleteFunc_eq_filter]
    apply List.filter_congr
    intro d h
    rw [hq d h, Bool.not_not]
  refine ⟨e, ?_, ?_, ?_, ?_⟩
  · intro d
    rw [e, List.mem_filter]
  · intro d h
    rw [e, List.mem_filter, hq d h]
    simp [h]
  · rw [e]
    exact List.filter_sublist dets
  · rw [e]
    exact filter_length_partition _ _ dets hq

/-- Witness of `scoreFilter_spec`: `-score 0.5` and two detections, of scores 0.9 and 0.3; the
first is kept and the second discarded. -/
theorem scoreFilter_spec_witness :
    scoreFilter (.fin (1 / 2)) [⟨120, 100, 80, .fin (9 / 10)⟩, ⟨50, 50, 40, .fin (3 / 10)⟩] =
      [⟨120, 100, 80, .fin (9 / 10)⟩] ∧
    (⟨50, 50, 40, .fin (3 / 10)⟩ : Detection) ∉
      scoreFilter (.fin (1 / 2)) [⟨120, 100, 80, .fin (9 / 10)⟩, ⟨50, 50, 40, .fin (3 / 10)⟩] := by
  have h := scoreFilter_spec (.fin (1 / 2))
    [⟨120, 100, 80, .fin (9 / 10)⟩, ⟨50, 50, 40, .fin (3 / 10)⟩] (by simp) (by simp)
  have h1 : FloatVal.ge (.fin (9 / 10)) (.fin (1 / 2)) = true := by
    simp only [FloatVal.ge, decide_eq_true_eq]
    norm_num
  have h2 : FloatVal.lt (.fin (3 / 10)) (.fin (1 / 2)) = true := by
    simp only [FloatVal.lt, decide_eq_true_eq]
    norm_num
  have h3 : FloatVal.ge (.fin (3 / 10)) (.fin (1 / 2)) = false := by
    rw [← Bool.not_eq_true, FloatVal.ge, decide_eq_true_eq]
    norm_num
  refine ⟨?_, (h.2.2.1 _ (by simp)).mpr h2⟩
  rw [h.1]
  simp only [List.filter_cons, List.filter_nil, h1, h3, if_true, Bool.false_eq_true, if_false]

/-! ## Output file names -/

/-- C5: for an image with `k` surviving detections there is one save per detection, the save at
position `i` of the post-filter list (`i = 0..k-1`) pairing the crop of that detection with the
file name `Join(out, {base}_{NN}.png)`, where `base` is the base name of the input path without
its extension and `NN` is `i` in decimal, padded with zeros to 2 digits; for a path that is not the
root directory and an output directory whose clean form is neither `.` nor `/` the name is
`{Clean out}/{base}_{NN}.png`, which is `{out}/{base}_{NN}.png` when `out` is in clean form, and
the single detection of `image.png` with the default `faces`
directory is saved as `faces/image_00.png`. -/
theorem imageSaves_names (ovf : Detection → Int) (out arg : List Char) (size : Int)
    (face : ℚ) (score : FloatVal) (cols rows : Int) (dets : List Detection) :
    (imageSaves ovf out arg size face score cols rows dets).length =
      (scoreFilter score dets).length ∧
    (∀ (i : Nat) (det : Detection), (scoreFilter score dets)[i]? = some det →
      (imageSaves ovf out arg size face score cols rows dets)[i]? =
        some (filename out arg i, computeCrop (ovf det) size face det cols rows)) ∧
    (∀ i : Nat, filename out arg i =
      Join out (TrimSuffix (Base arg) (Ext arg) ++ '_' :: pad2 i ++ ".png".toList)) ∧
    (∀ i : Nat, Base arg ≠ ['/'] → out ≠ [] → Clean out ≠ ['.'] → Clean out ≠ ['/'] →
      filename out arg i =
        Clean out ++ '/' :: (TrimSuffix (Base arg) (Ext arg) ++ '_' :: pad2 i ++ ".png".toList)) ∧
    (∀ i : Nat, Base arg ≠ ['/'] → Clean out = out → out ≠ ['.'] → out ≠ ['/'] →
      filename out arg i =
        out ++ '/' :: (TrimSuffix (Base arg) (Ext arg) ++ '_' :: pad2 i ++ ".png".toList)) ∧
    (∀ i : Nat, decValue (pad2 i) = i ∧ (∀ c ∈ pad2 i, c.isDigit = true) ∧
      2 ≤ (pad2 i).length ∧ (i < 100 → (pad2 i).length = 2)) ∧
    (imageSaves ovf "faces".toList "image.png".toList 256 (1 / 2) (.fin (1 / 2)) 640 480
      [⟨120, 100, 80, .fin (9 / 10)⟩]).map Prod.fst = ["faces/image_00.png".toList] := by
  refine ⟨?_, ?_, fun i => rfl, ?_, ?_, ?_, ?_⟩
  · unfold imageSaves
    exact dispatchFrom_length _ _ _ _ 0
  · intro i det h
    unfold imageSaves
    rw [dispatchFrom_get _ _ _ _ 0 i det h, Nat.zero_add]
  · intro i ha ho h1 h2
    unfold filename base
    exact Join_elem out _ ho h1 h2 (name_isElem _ i (base_noSep arg ha))
  · intro i ha hc h1 h2
    have ho : out ≠ [] := by
      intro e
      rw [e] at hc
      exact absurd hc (by decide)
    have hj := Join_elem out _ ho (by rw [hc]; exact h1) (by rw [hc]; exact h2)
      (name_isElem _ i (base_noSep arg ha))
    rw [hc] at hj
    exact hj
  · intro i
    exact ⟨decValue_pad2 i, pad2_isDigit i, pad2_length i, pad2_length_small i⟩
  · have hf : scoreFilter (.fin (1 / 2)) [⟨120, 100, 80, .fin (9 / 10)⟩] =
        [⟨120, 100, 80, .fin (9 / 10)⟩] := by
      have h : ¬ ((9 : ℚ) / 10 < 1 / 2) := by norm_num
      simp only [scoreFilter, DeleteFunc, FloatVal.lt, h, decide_False, Bool.false_eq_true,
        if_false]
    unfold imageSaves
    rw [hf]
    simp only [dispatchFrom, List.map_cons, List.map_nil]
    decide

/-- C6, as stated, fails: with the output directory `faces`, the first detection of
`a/image.png` and the first detection of `b/image.png` are written to the same file. -/
theorem filename_collision :
    "a/image.png".toList ≠ "b/image.png".toList ∧
    filename "faces".toList "a/image.png".toList 0 =
      filename "faces".toList "b/image.png".toList 0 := by
  decide

/-- C6, amended: for every output directory and any two pairs of an input path (not the root
directory) and a detection index, the two output file names are equal exactly when the indices
are equal and the paths have the same base name without extension. -/
theorem filename_eq_iff (out a b : List Char) (i j : Nat) (ha : Base a ≠ ['/'])
    (hb : Base b ≠ ['/']) :
    filename out a i = filename out b j ↔ base a = base b ∧ i = j := by
  constructor
  · intro h
    obtain ⟨P, hP⟩ := Join_elem_prefix out
    unfold filename at h
    rw [hP _ (name_isElem _ i (base_noSep a ha)), hP _ (name_isElem _ j (base_noSep b hb))] at h
    exact name_injective _ _ i j (List.append_cancel_left h)
  · rintro ⟨h1, h2⟩
    unfold filename
    rw [h1, h2]

/-- Witness of `filename_eq_iff`: two detections of `a/image.png` get different file names. -/
theorem filename_eq_iff_witness :
    filename "faces".toList "a/image.png".toList 0 ≠
      filename "faces".toList "a/image.png".toList 1 := by
  intro h
  have := (filename_eq_iff "faces".toList "a/image.png".toList "a/image.png".toList 0 1
    (by decide) (by decide)).mp h
  exact absurd this.2 (by decide)

/-! ## Fan-out and fan-in -/

/-- C7: under every schedule, once `main` has returned, every image task it started has
finished and every crop/save task started by an image task has finished: all `n` image tasks
are done, all `k a` detection tasks of each image `a` are finished, and no task is running. -/
theorem main_returns_after_tasks (n : Nat) (k : Nat → Nat) (sched : List Thread)
    (h : (exec n k TaskState.init sched).mainPc = .returned) :
    (∀ a, a < n → (exec n k TaskState.init sched).img a = .done) ∧
    (∀ a i, a < n → i < k a → (exec n k TaskState.init sched).det a i = .finished) ∧
    (∀ a, (exec n k TaskState.init sched).img a = .idle ∨
      (exec n k TaskState.init sched).img a = .done) ∧
    (∀ a i, (exec n k TaskState.init sched).det a i ≠ .running) := by
  obtain ⟨hm, hi⟩ := exec_inv n k sched TaskState.init (init_inv n k)
  unfold MainInv at hm
  rw [h] at hm
  have hall : ∀ a, (exec n k TaskState.init sched).img a = .idle ∨
      (exec n k TaskState.init sched).img a = .done := by
    intro a
    rcases Nat.lt_or_ge a n with hl | hl
    · exact Or.inr (hm.1 a hl)
    · exact Or.inl (hm.2 a hl)
  refine ⟨hm.1, ?_, hall, ?_⟩
  · intro a i ha hik
    have := hi a
    unfold ImgInv at this
    rw [hm.1 a ha] at this
    exact this.1 i hik
  · intro a i hr
    have := hi a
    unfold ImgInv at this
    rcases hall a with h1 | h1
    · rw [h1] at this
      rw [this.1 i] at hr
      exact absurd hr (by simp)
    · rw [h1] at this
      rcases Nat.lt_or_ge i (k a) with hl | hl
      · rw [this.1 i hl] at hr
        exact absurd hr (by simp)
      · rw [this.2.1 i hl] at hr
        exact absurd hr (by simp)

/-- Witness of `main_returns_after_tasks`: a batch of two images with two and one surviving
detections, under a schedule that interleaves the two image tasks and ends with the return of
`main`. -/
theorem main_returns_after_tasks_witness :
    (exec 2 (fun a => if a = 0 then 2 else 1) TaskState.init
      [.main, .main, .image 0, .image 1, .det 1 0, .det 0 0, .image 0, .image 0, .det 0 1,
        .image 0, .image 0, .image 1, .image 1, .main]).mainPc = .returned ∧
    (exec 2 (fun a => if a = 0 then 2 else 1) TaskState.init
      [.main, .main, .image 0, .image 1, .det 1 0, .det 0 0, .image 0, .image 0, .det 0 1,
        .image 0, .image 0, .image 1, .image 1, .main]).det 0 1 = .finished :=
  ⟨by decide, (main_returns_after_tasks 2 (fun a => if a = 0 then 2 else 1)
      [.main, .main, .image 0, .image 1, .det 1 0, .det 0 0, .image 0, .image 0, .det 0 1,
        .image 0, .image 0, .image 1, .image 1, .main] (by decide)).2.1 0 1 (by decide)
      (by decide)⟩

/-- C8 does not hold of the code: under every schedule the crop/save tasks of one image run one
at a time.  The task of detection `i + 1` is not started unless the task of detection `i` has
finished, and no two tasks of one image are running in the same state: the `wg.Wait()` of line
112 is inside the loop. -/
theorem detTasks_one_at_a_time (n : Nat) (k : Nat → Nat) (sched : List Thread) (a : Nat) :
    (∀ i, (exec n k TaskState.init sched).det a (i + 1) = .idle ∨
      (exec n k TaskState.init sched).det a i = .finished) ∧
    (∀ i j, (exec n k TaskState.init sched).det a i = .running ∧
      (exec n k TaskState.init sched).det a j = .running → i = j) := by
  have hi := (exec_inv n k sched TaskState.init (init_inv n k)).2 a
  unfold ImgInv at hi
  cases hp : (exec n k TaskState.init sched).img a with
  | idle =>
    rw [hp] at hi
    refine ⟨fun i => Or.inl (hi.1 _), ?_⟩
    rintro i j ⟨h1, _⟩
    rw [hi.1 i] at h1
    exact absurd h1 (by simp)
  | done =>
    rw [hp] at hi
    constructor
    · intro i
      rcases Nat.lt_or_ge i (k a) with hl | hl
      · exact Or.inr (hi.1 i hl)
      · exact Or.inl (hi.2.1 _ (by omega))
    · rintro i j ⟨h1, _⟩
      rcases Nat.lt_or_ge i (k a) with hl | hl
      · rw [hi.1 i hl] at h1
        exact absurd h1 (by simp)
      · rw [hi.2.1 i hl] at h1
        exact absurd h1 (by simp)
  | loop m =>
    rw [hp] at hi
    constructor
    · intro i
      rcases Nat.lt_or_ge i m with hl | hl
      · exact Or.inr (hi.2.1 i hl)
      · exact Or.inl (hi.2.2.1 _ (by omega))
    · rintro i j ⟨h1, _⟩
      rcases Nat.lt_or_ge i m with hl | hl
      · rw [hi.2.1 i hl] at h1
        exact absurd h1 (by simp)
      · rw [hi.2.2.1 i hl] at h1
        exact absurd h1 (by simp)
  | waiting m =>
    rw [hp] at hi
    obtain ⟨_, hfin, hidle, _⟩ := hi
    have honly : ∀ x, (exec n k TaskState.init sched).det a x = .running → x = m := by
      intro x hx
      rcases Nat.lt_trichotomy x m with hl | hl | hl
      · rw [hfin x hl] at hx
        exact absurd hx (by simp)
      · exact hl
      · rw [hidle x hl] at hx
        exact absurd hx (by simp)
    constructor
    · intro i
      rcases Nat.lt_or_ge i m with hl | hl
      · exact Or.inr (hfin i hl)
      · exact Or.inl (hidle _ (by omega))
    · rintro i j ⟨h1, h2⟩
      rw [honly i h1, honly j h2]

end Kao
